import Mathlib

/-!
Shallow embedding of `pgexplode.py` (dcwatson/pgexplode).

The embedding follows the source closely:
  * `TableNode` / `Graph` mirror the dict built by `build_graph` — an
    association list from table name to its primary-key columns and its
    foreign-key map (target table ↦ list of `(column, foreign_column, nullable)`),
    preserving Python dict insertion order.
  * `find_joins` is the recursive shortest-join-path search; since the Python
    function is generally recursive (and does not terminate on cyclic inputs),
    it is embedded with an explicit recursion-depth budget `fuel`: the value
    `.error .noFuel` means the budget was exhausted, and if the real function
    terminates within depth `fuel` the embedding returns its result as `.ok`.
    `graph[table]` on a missing key is `.error .keyError`.
  * `table_data` is the resolution loop producing `(table, SELECT ...)` pairs;
    its `while` loop likewise gets a pass budget.
  * `build_graph`, `restore_keys` and the orchestrator's statement sequence are
    embedded as pure functions from the fetched rows.
-/

namespace Pgexplode

/-- Errors a Python run of the embedded code can raise: `noFuel` marks the
recursion/loop budget of the embedding running out (modelling non-termination
or unbounded recursion when no finite budget suffices), `keyError` a dict
lookup miss, `indexError` an out-of-range list index. -/
inductive PyErr where
  | noFuel
  | keyError
  | indexError
deriving DecidableEq, Repr

/-- One node of the graph built by `build_graph`: the table's primary-key
column list and its foreign-key map (ordered association list from target
table name to the list of `(column_name, foreign_column_name, nullable)`
triples). -/
structure TableNode where
  pks : List String
  fks : List (String × List (String × String × Bool))
deriving DecidableEq, Repr

/-- The graph of `build_graph`: an insertion-ordered dict from table name to
`TableNode`. -/
abbrev Graph := List (String × TableNode)

/-- One hop of a join path: `(parent_table, local_column, target_column)`. -/
abbrev Hop := String × String × String

/-- Python dict lookup `graph[t]` (first entry with the given key). -/
def lookupG : Graph → String → Option TableNode
  | [], _ => none
  | e :: rest, t => if e.1 = t then some e.2 else lookupG rest t

/-- The key list of the graph dict. -/
def keysOf (g : Graph) : List String := g.map (fun e => e.1)

/-- The flattened iteration of `for parent, columns in graph[table]["fks"].items():
if parent == table: continue; for from_col, to_col, nullable in columns:` —
the `(parent, from_col, to_col, nullable)` tuples in iteration order, with
self-edges skipped. -/
def flatEdges (table : String) : List (String × List (String × String × Bool)) →
    List (String × String × String × Bool)
  | [] => []
  | (parent, cols) :: rest =>
    if parent = table then flatEdges table rest
    else cols.map (fun c => (parent, c)) ++ flatEdges table rest

/-- Python truthiness of a `list-or-None` value: `None` and `[]` are falsy. -/
def truthy : Option (List Hop) → Bool
  | none => false
  | some l => !l.isEmpty

/-- Stable ascending insertion by list length, modelling
`candidates.sort(key=len)` as far as the head (the minimum) is concerned. -/
def insertLen (x : List Hop) : List (List Hop) → List (List Hop)
  | [] => [x]
  | y :: ys => if x.length ≤ y.length then x :: y :: ys else y :: insertLen x ys

/-- Sort a list of candidate paths ascending by length. -/
def sortByLen : List (List Hop) → List (List Hop)
  | [] => []
  | x :: xs => insertLen x (sortByLen xs)

/-- The inner double loop of `find_joins`: run the recursive search `rec` on
every non-nullable flattened edge, collecting the truthy results in order
(`candidates`), propagating the first raised error. -/
def collectCands (rec : String → Option (List Hop) → Except PyErr (Option (List Hop)))
    (p : List Hop) : List (String × String × String × Bool) → Except PyErr (List (List Hop))
  | [] => .ok []
  | (parent, fc, tc, nb) :: rest =>
    if nb then collectCands rec p rest
    else
      match rec parent (some (p ++ [(parent, fc, tc)])) with
      | .error e => .error e
      | .ok found =>
        match collectCands rec p rest with
        | .error e => .error e
        | .ok cs => .ok (if truthy found then found.getD [] :: cs else cs)

/-- Embedding of `find_joins(table, root, graph, path=None)` (pgexplode.py
lines 99–117) with an explicit recursion-depth budget: each call consumes one
unit of `fuel`; `.error .noFuel` means the depth budget ran out. -/
def find_joins (g : Graph) (root : String) : Nat → String → Option (List Hop) →
    Except PyErr (Option (List Hop))
  | 0, _, _ => .error .noFuel
  | fuel + 1, table, path =>
    if table = root then .ok path
    else
      match lookupG g table with
      | none => .error .keyError
      | some node =>
        match collectCands (find_joins g root fuel) (path.getD []) (flatEdges table node.fks) with
        | .error e => .error e
        | .ok cands => .ok (sortByLen cands).head?

/-- Validity of a join chain from table `t` back to `root` in graph `g`: each
hop `(parent, fc, tc)` must be a non-nullable, non-self foreign-key edge of the
current table, consecutive hops are connected, and the chain ends at `root`. -/
def chainOk (g : Graph) (root : String) : String → List Hop → Bool
  | t, [] => decide (t = root)
  | t, (parent, fc, tc) :: rest =>
    match lookupG g t with
    | none => false
    | some node =>
      decide ((parent, fc, tc, false) ∈ flatEdges t node.fks) && chainOk g root parent rest

/-- Closure invariant of the spec's data model: every foreign-key target named
by any node is itself a key of the graph. -/
def closedG (g : Graph) : Prop :=
  ∀ e ∈ g, ∀ pc ∈ e.2.fks, (lookupG g pc.1).isSome = true

instance : DecidablePred closedG := fun g => by
  unfold closedG; infer_instance

/-- Acyclicity of the non-nullable, non-self foreign-key edge relation,
expressed by a rank function that strictly decreases along every such edge
(for a finite graph this is equivalent to the relation being acyclic). -/
def RankOk (g : Graph) (rank : String → Nat) : Prop :=
  ∀ e ∈ g, ∀ q ∈ flatEdges e.1 e.2.fks, q.2.2.2 = false → rank q.1 < rank e.1

instance (g : Graph) (rank : String → Nat) : Decidable (RankOk g rank) := by
  unfold RankOk; infer_instance

/-- Acyclicity of the whole foreign-key relation ignoring self-edges: a rank
function that strictly decreases along every non-self foreign-key edge,
nullable or not. -/
def RankAllOk (g : Graph) (rank : String → Nat) : Prop :=
  ∀ e ∈ g, ∀ pc ∈ e.2.fks, pc.1 ≠ e.1 → rank pc.1 < rank e.1

instance (g : Graph) (rank : String → Nat) : Decidable (RankAllOk g rank) := by
  unfold RankAllOk; infer_instance

/-- Row of the table query `TABLE_SQL`: a base table of the `public` schema that
has a primary key, together with its primary-key column list. -/
structure TableRow where
  table_name : String
  pk_cols : List String
deriving DecidableEq, Repr

/-- Row of the foreign-key query `FK_SQL`: one foreign-key constraint of the
`public` schema with its owning table, local column, referenced table and
column, and the local column's nullability. -/
structure FKRow where
  constraint_name : String
  table_name : String
  column_name : String
  foreign_table_name : String
  foreign_column_name : String
  nullable : Bool
deriving DecidableEq, Repr

/-- Python dict assignment `graph[k] = v`: replace the value at the first
occurrence of the key, keeping its position, else append at the end. -/
def dictSet (g : Graph) (k : String) (v : TableNode) : Graph :=
  match g with
  | [] => [(k, v)]
  | e :: rest => if e.1 = k then (k, v) :: rest else e :: dictSet rest k v

/-- First loop of `build_graph` (lines 86–89): for every table row not skipped,
install a node with its primary-key columns and an empty foreign-key map. -/
def tablePass (skip : List String) : List TableRow → Graph → Graph
  | [], g => g
  | r :: rest, g =>
    if skip ≠ [] ∧ r.table_name ∈ skip then tablePass skip rest g
    else tablePass skip rest (dictSet g r.table_name ⟨r.pk_cols, []⟩)

/-- `fks.setdefault(ft, []).append(tr)` on the ordered foreign-key map. -/
def fksAdd (fks : List (String × List (String × String × Bool))) (ft : String)
    (tr : String × String × Bool) : List (String × List (String × String × Bool)) :=
  match fks with
  | [] => [(ft, [tr])]
  | e :: rest => if e.1 = ft then (ft, e.2 ++ [tr]) :: rest else e :: fksAdd rest ft tr

/-- `graph[owner]["fks"].setdefault(ft, []).append(tr)`; `none` models the
`KeyError` raised when `owner` is not a key of the graph. -/
def addEdge (g : Graph) (owner ft : String) (tr : String × String × Bool) : Option Graph :=
  match g with
  | [] => none
  | e :: rest =>
    if e.1 = owner then some ((owner, ⟨e.2.pks, fksAdd e.2.fks ft tr⟩) :: rest)
    else
      match addEdge rest owner ft tr with
      | none => none
      | some g' => some (e :: g')

/-- Second loop of `build_graph` (lines 90–95): for every foreign-key row not
touching a skipped table, append the edge under the owner's node; a missing
owner raises `KeyError` (modelled as `none`). -/
def fkPass (skip : List String) : List FKRow → Graph → Option Graph
  | [], g => some g
  | r :: rest, g =>
    if skip ≠ [] ∧ (r.table_name ∈ skip ∨ r.foreign_table_name ∈ skip) then
      fkPass skip rest g
    else
      match addEdge g r.table_name r.foreign_table_name
          (r.column_name, r.foreign_column_name, r.nullable) with
      | none => none
      | some g' => fkPass skip rest g'

/-- Embedding of `build_graph(db, skip=None)` (lines 81–96) as a pure function
of the two row sets; `skip = []` models `skip=None`. `none` models the
`KeyError` raised when a non-skipped foreign-key row's owning table is not a
node. -/
def build_graph (tableRows : List TableRow) (fkRows : List FKRow) (skip : List String) :
    Option Graph :=
  fkPass skip fkRows (tablePass skip tableRows [])

/-- Target-table keys of a node's foreign-key map: `set(info["fks"])` as an
ordered list. -/
def fkTargets (info : TableNode) : List String := info.fks.map (fun e => e.1)

/-- The `JOIN {parent} ON {last}.{from_col} = {parent}.{to_col}` clauses of the
join-path query, threading `last` through the hops (lines 139–146). -/
def joinClauses : String → List Hop → List String
  | _, [] => []
  | last, (parent, fc, tc) :: rest =>
    ("JOIN " ++ parent ++ " ON " ++ last ++ "." ++ fc ++ " = " ++ parent ++ "." ++ tc)
      :: joinClauses parent rest

/-- The statement built by `table_data` for one resolved table (lines 135–152):
take the table's first primary-key column (an empty list raises `IndexError`),
run `find_joins`, and emit the join query, the root query, or the unfiltered
full-table query. -/
def buildStmt (g : Graph) (root rootId : String) (fuel : Nat) (child : String)
    (info : TableNode) : Except PyErr String :=
  match info.pks with
  | [] => .error .indexError
  | pk :: _ =>
    match find_joins g root fuel child none with
    | .error e => .error e
    | .ok joins =>
      if truthy joins then
        .ok (String.intercalate " "
          (("SELECT " ++ child ++ ".* FROM " ++ child)
            :: (joinClauses child (joins.getD []) ++
                ["WHERE " ++ root ++ "." ++ pk ++ " = " ++ rootId])))
      else if child = root then
        .ok ("SELECT * FROM " ++ root ++ " WHERE " ++ pk ++ " = " ++ rootId)
      else
        .ok ("SELECT * FROM " ++ child)

/-- One `for child, info in graph.items():` pass of the resolution loop of
`table_data` (lines 127–152), threading the `seen` set and the yielded
`(table, statement)` pairs. -/
def tdPass (g : Graph) (root rootId : String) (fuel : Nat) :
    List (String × TableNode) → List String → List (String × String) →
    Except PyErr (List String × List (String × String))
  | [], seen, acc => .ok (seen, acc)
  | (child, info) :: rest, seen, acc =>
    if child ∈ seen then tdPass g root rootId fuel rest seen acc
    else if (fkTargets info).all (fun t => decide (t = child ∨ t ∈ seen)) then
      match buildStmt g root rootId fuel child info with
      | .error e => .error e
      | .ok stmt => tdPass g root rootId fuel rest (seen ++ [child]) (acc ++ [(child, stmt)])
    else tdPass g root rootId fuel rest seen acc

/-- The `while len(seen) < len(graph):` loop of `table_data` (line 126) with an
explicit pass budget; `.error .noFuel` models a loop that never converges. -/
def tdLoop (g : Graph) (root rootId : String) (fuel : Nat) :
    Nat → List String → List (String × String) → Except PyErr (List (String × String))
  | 0, seen, acc => if seen.length < g.length then .error .noFuel else .ok acc
  | n + 1, seen, acc =>
    if seen.length < g.length then
      match tdPass g root rootId fuel g seen acc with
      | .error e => .error e
      | .ok (seen', acc') => tdLoop g root rootId fuel n seen' acc'
    else .ok acc

/-- Embedding of `table_data(db, graph, root, root_id)` (lines 120–152): the
full list of `(table, select_statement)` pairs the generator yields, with
`fuel` bounding both the number of `while` passes and the `find_joins`
recursion depth. -/
def table_data (g : Graph) (root rootId : String) (fuel : Nat) :
    Except PyErr (List (String × String)) :=
  tdLoop g root rootId fuel fuel [] []

/-- The `ALTER TABLE` statement `restore_keys` issues for one foreign-key row
(lines 68–78). -/
def fkStmt (schema : String) (r : FKRow) : String :=
  "ALTER TABLE " ++ schema ++ "." ++ r.table_name ++ " ADD CONSTRAINT " ++
    r.constraint_name ++ " FOREIGN KEY (" ++ r.column_name ++ ") REFERENCES " ++
    schema ++ "." ++ r.foreign_table_name ++ " (" ++ r.foreign_column_name ++ ")"

/-- Embedding of `restore_keys(db, schema)` (lines 63–78): the statements it
executes, one per row of `FK_SQL`, in order. -/
def restore_keys (schema : String) (rows : List FKRow) : List String :=
  rows.map (fkStmt schema)

/-- Embedding of the per-root-row work of `explode(opts)` (lines 155–186):
build the graph (with no skip set), look up the root's primary key, compute the
warning flag `bool(graph[root]["fks"])`, run `table_data`, and produce the
warning flag together with the executed statement sequence (schema reset,
per-table clone and insert, constraint restoration). -/
def explode_step (tableRows : List TableRow) (fkRows : List FKRow)
    (root rootId schema : String) (fuel : Nat) : Except PyErr (Bool × List String) :=
  match build_graph tableRows fkRows [] with
  | none => .error .keyError
  | some g =>
    match lookupG g root with
    | none => .error .keyError
    | some rootInfo =>
      match rootInfo.pks with
      | [] => .error .indexError
      | _ :: _ =>
        match table_data g root rootId fuel with
        | .error e => .error e
        | .ok out =>
          .ok (!rootInfo.fks.isEmpty,
            ["DROP SCHEMA IF EXISTS " ++ schema ++ " CASCADE",
             "CREATE SCHEMA " ++ schema] ++
            out.foldr (fun ts acc =>
              ("CREATE TABLE " ++ schema ++ "." ++ ts.1 ++
                 " (LIKE public." ++ ts.1 ++ " INCLUDING ALL)") ::
              ("INSERT INTO " ++ schema ++ "." ++ ts.1 ++ " (" ++ ts.2 ++ ")") :: acc) [] ++
            restore_keys schema fkRows)

/-- Executable membership of a triple in a foreign-key map under a target key. -/
def edgeInFks (fks : List (String × List (String × String × Bool))) (ft : String)
    (tr : String × String × Bool) : Bool :=
  fks.any (fun pc => decide (pc.1 = ft) && decide (tr ∈ pc.2))

/-- Executable edge membership: graph `g` holds the foreign-key triple `tr`
from `owner` to `ft`. -/
def edgeIn (g : Graph) (owner ft : String) (tr : String × String × Bool) : Bool :=
  match lookupG g owner with
  | none => false
  | some node => edgeInFks node.fks ft tr

/-- Exclusion invariant on edges: no edge of the graph touches a table of the
exclusion set, on either endpoint. -/
def EdgesExcl (skip : List String) (g : Graph) : Prop :=
  ∀ e ∈ g, ∀ pc ∈ e.2.fks, e.1 ∉ skip ∧ pc.1 ∉ skip

/-- Concrete graph with a non-nullable foreign-key 2-cycle `a ↔ b` not through
the root `r`. -/
def gcyc : Graph :=
  [("r", ⟨["id"], []⟩),
   ("a", ⟨["id"], [("b", [("b_id", "id", false)])]⟩),
   ("b", ⟨["id"], [("a", [("a_id", "id", false)])]⟩)]

/-- Concrete graph with a root `r` and an unrelated table `a` holding no
foreign keys. -/
def exG6 : Graph := [("r", ⟨["id"], []⟩), ("a", ⟨["id"], []⟩)]

/-- Concrete graph with one table `a` holding a single non-nullable foreign
key to the root `r`. -/
def exG1 : Graph :=
  [("r", ⟨["id"], []⟩),
   ("a", ⟨["id"], [("r", [("r_id", "id", false)])]⟩)]

/-- Order soundness of an emitted `(table, statement)` list: relative to the
list `done` of already-emitted table names, each emitted table's non-self
foreign-key targets have all been emitted before it. -/
def GoodOut (g : Graph) : List String → List (String × String) → Prop
  | _, [] => True
  | done, x :: rest =>
    (∀ info, lookupG g x.1 = some info → ∀ t ∈ fkTargets info, t ≠ x.1 → t ∈ done) ∧
      GoodOut g (done ++ [x.1]) rest

/-- Concrete table rows for a root `r` with one child `c`. -/
def exTRows : List TableRow := [⟨"r", ["id"]⟩, ⟨"c", ["id"]⟩]

/-- Concrete foreign-key rows: the root `r` itself holds a non-nullable
foreign key into `c`. -/
def exFRows : List FKRow := [⟨"fk1", "r", "c_id", "c", "id", false⟩]

/-- The graph `build_graph` produces from `exTRows` and `exFRows`. -/
def exGW : Graph :=
  [("r", ⟨["id"], [("c", [("c_id", "id", false)])]⟩), ("c", ⟨["id"], []⟩)]

/-- The sequence `table_data` yields on `exGW` with root `r` and row id 1. -/
def exOutW : List (String × String) :=
  [("c", "SELECT * FROM c"), ("r", "SELECT * FROM r WHERE id = 1")]

/- ## Theorems -/

/-- Unfolding of `find_joins` at positive fuel. -/
theorem find_joins_succ (g : Graph) (root : String) (fuel : Nat) (table : String)
    (path : Option (List Hop)) :
    find_joins g root (fuel + 1) table path =
      if table = root then .ok path
      else
        match lookupG g table with
        | none => .error .keyError
        | some node =>
          match collectCands (find_joins g root fuel) (path.getD [])
              (flatEdges table node.fks) with
          | .error e => .error e
          | .ok cands => .ok (sortByLen cands).head? := rfl

/-- The top-level call `find_joins(root, root, graph)` returns `None`
immediately (line 103 returns the default `path`). -/
theorem find_joins_at_root (g : Graph) (root : String) (fuel : Nat) (h : 1 ≤ fuel) :
    find_joins g root fuel root none = .ok none := by
  obtain ⟨f, rfl⟩ : ∃ f, fuel = f + 1 := ⟨fuel - 1, by omega⟩
  simp [find_joins_succ]

/-- C7: when the table being sequenced is the root table itself, `table_data`
emits `SELECT * FROM root WHERE pk = root_id` with `pk` the root's first
declared primary-key column, and never a join query: `find_joins` returns
`None` for the root, so the root branch (line 150) is taken. -/
theorem table_data_root_statement (g : Graph) (root rootId : String) (fuel : Nat)
    (info : TableNode) (pk : String) (rest : List String)
    (hpks : info.pks = pk :: rest) (hfuel : 1 ≤ fuel) :
    buildStmt g root rootId fuel root info =
      .ok ("SELECT * FROM " ++ root ++ " WHERE " ++ pk ++ " = " ++ rootId) := by
  unfold buildStmt
  rw [hpks, find_joins_at_root g root fuel hfuel]
  simp [truthy]

/-- Witness for C7 at a concrete root table. -/
theorem table_data_root_statement_witness :
    buildStmt [("t", ⟨["id"], []⟩)] "t" "7" 1 "t" ⟨["id"], []⟩ =
      .ok ("SELECT * FROM t WHERE id = 7") :=
  table_data_root_statement [("t", ⟨["id"], []⟩)] "t" "7" 1 ⟨["id"], []⟩ "id" [] rfl
    (by decide)

/-- C4 (code bug): on a root `orders` with primary key `id` and a child
`items` with primary key `item_id` and non-nullable foreign key
`items.order_id → orders.id`, the join query `table_data` emits filters on
`orders.item_id` — the CHILD's first primary-key column qualified by the root
table (line 135 takes `pk` from the child's node, line 147 uses it as
`WHERE {root}.{pk}`) — instead of the root's primary key `orders.id` that the
specification prescribes. -/
theorem table_data_where_uses_child_pk :
    table_data
      [("orders", ⟨["id"], []⟩),
       ("items", ⟨["item_id"], [("orders", [("order_id", "id", false)])]⟩)]
      "orders" "42" 3 =
      .ok [("orders", "SELECT * FROM orders WHERE id = 42"),
           ("items", "SELECT items.* FROM items JOIN orders ON items.order_id = orders.id WHERE orders.item_id = 42")] ∧
    "SELECT items.* FROM items JOIN orders ON items.order_id = orders.id WHERE orders.item_id = 42" ≠
      "SELECT items.* FROM items JOIN orders ON items.order_id = orders.id WHERE orders.id = 42" := by
  constructor
  · rfl
  · decide

/-- `addEdge` fails exactly when the owner is not a key of the graph. -/
theorem addEdge_none_iff (g : Graph) (owner ft : String) (tr : String × String × Bool) :
    addEdge g owner ft tr = none ↔ owner ∉ keysOf g := by
  induction g with
  | nil => simp [addEdge, keysOf]
  | cons e rest ih =>
    rw [addEdge]
    by_cases h : e.1 = owner
    · rw [if_pos h]
      simp [keysOf, h]
    · rw [if_neg h]
      cases hrec : addEdge rest owner ft tr with
      | none =>
        have hmem : owner ∉ keysOf rest := ih.mp hrec
        have h2 : ¬owner = e.1 := fun hh => h hh.symm
        simp only [keysOf, List.map_cons, List.mem_cons] at hmem ⊢
        constructor
        · intro _ hor
          rcases hor with hh | hh
          · exact h2 hh
          · exact hmem hh
        · intro _
          trivial
      | some g' =>
        have hmem : owner ∈ keysOf rest := by
          by_contra hc
          rw [← ih] at hc
          rw [hc] at hrec
          cases hrec
        simp only [keysOf, List.map_cons, List.mem_cons] at hmem ⊢
        constructor
        · intro hh
          cases hh
        · intro hh
          exact absurd (Or.inr hmem) hh

/-- `addEdge` does not change the key list. -/
theorem addEdge_keys (g : Graph) (owner ft : String) (tr : String × String × Bool)
    (g' : Graph) (h : addEdge g owner ft tr = some g') : keysOf g' = keysOf g := by
  induction g generalizing g' with
  | nil => simp [addEdge] at h
  | cons e rest ih =>
    rw [addEdge] at h
    by_cases he : e.1 = owner
    · rw [if_pos he] at h
      cases h
      simp [keysOf, he]
    · rw [if_neg he] at h
      cases hrec : addEdge rest owner ft tr with
      | none => rw [hrec] at h; cases h
      | some g'' =>
        rw [hrec] at h
        cases h
        have h2 := ih g'' hrec
        simp only [keysOf, List.map_cons] at h2 ⊢
        rw [h2]

/-- `fkPass` does not change the key list. -/
theorem fkPass_keys (skip : List String) (rows : List FKRow) (g g' : Graph)
    (h : fkPass skip rows g = some g') : keysOf g' = keysOf g := by
  induction rows generalizing g with
  | nil => rw [fkPass] at h; cases h; rfl
  | cons r rest ih =>
    rw [fkPass] at h
    by_cases hs : skip ≠ [] ∧ (r.table_name ∈ skip ∨ r.foreign_table_name ∈ skip)
    · rw [if_pos hs] at h; exact ih g h
    · rw [if_neg hs] at h
      cases ha : addEdge g r.table_name r.foreign_table_name
          (r.column_name, r.foreign_column_name, r.nullable) with
      | none => rw [ha] at h; cases h
      | some g'' =>
        rw [ha] at h
        rw [ih g'' h, addEdge_keys _ _ _ _ _ ha]

/-- `fkPass` fails exactly when some processed row is not dropped by the
exclusion filter and its owning table is not a key of the graph. -/
theorem fkPass_none_iff (skip : List String) (rows : List FKRow) (g : Graph) :
    fkPass skip rows g = none ↔
      ∃ r ∈ rows, ¬(skip ≠ [] ∧ (r.table_name ∈ skip ∨ r.foreign_table_name ∈ skip)) ∧
        r.table_name ∉ keysOf g := by
  induction rows generalizing g with
  | nil => simp [fkPass]
  | cons r rest ih =>
    rw [fkPass]
    by_cases hs : skip ≠ [] ∧ (r.table_name ∈ skip ∨ r.foreign_table_name ∈ skip)
    · rw [if_pos hs, ih g]
      constructor
      · rintro ⟨r', hr', h1, h2⟩
        exact ⟨r', List.mem_cons_of_mem _ hr', h1, h2⟩
      · rintro ⟨r', hr', h1, h2⟩
        rcases List.mem_cons.mp hr' with rfl | hr'
        · exact absurd hs h1
        · exact ⟨r', hr', h1, h2⟩
    · rw [if_neg hs]
      cases ha : addEdge g r.table_name r.foreign_table_name
          (r.column_name, r.foreign_column_name, r.nullable) with
      | none =>
        simp only [true_iff]
        exact ⟨r, List.mem_cons_self r rest, hs, (addEdge_none_iff _ _ _ _).mp ha⟩
      | some g' =>
        rw [ih g']
        have hkeys : keysOf g' = keysOf g := addEdge_keys _ _ _ _ _ ha
        have howner : r.table_name ∈ keysOf g := by
          by_contra hmem
          rw [← addEdge_none_iff g r.table_name r.foreign_table_name
            (r.column_name, r.foreign_column_name, r.nullable)] at hmem
          rw [hmem] at ha
          cases ha
        constructor
        · rintro ⟨r', hr', h1, h2⟩
          exact ⟨r', List.mem_cons_of_mem _ hr', h1, by rwa [hkeys] at h2⟩
        · rintro ⟨r', hr', h1, h2⟩
          rcases List.mem_cons.mp hr' with rfl | hr'
          · exact absurd howner h2
          · exact ⟨r', hr', h1, by rwa [← hkeys] at h2⟩

/-- C10 (amended): `build_graph` raises `KeyError` exactly when some
foreign-key row survives the exclusion filter (neither its owning nor its
referenced table is excluded, or no exclusion set was given) while its owning
table is not a node created by the table pass; equivalently, it totals exactly
under the precondition that every such row's owning table is a node. -/
theorem build_graph_keyerror_iff (tableRows : List TableRow) (fkRows : List FKRow)
    (skip : List String) :
    build_graph tableRows fkRows skip = none ↔
      ∃ r ∈ fkRows, ¬(skip ≠ [] ∧ (r.table_name ∈ skip ∨ r.foreign_table_name ∈ skip)) ∧
        r.table_name ∉ keysOf (tablePass skip tableRows []) :=
  fkPass_none_iff skip fkRows (tablePass skip tableRows [])

/-- Counterexample to C10 as stated: the input holds a foreign-key row whose
owning table `a` appears in no table row and is not in the exclusion set, yet
`build_graph` raises no `KeyError` — the row is dropped because its REFERENCED
table `v` is excluded, a case the claim's wording does not except. -/
theorem build_graph_counterexample_target_excluded :
    build_graph [] [⟨"fk1", "a", "a_vid", "v", "vid", false⟩] ["v"] = some [] ∧
    "a" ∉ keysOf (tablePass ["v"] [] []) ∧ "a" ∉ (["v"] : List String) := by
  decide

/-- Key membership after a dict assignment. -/
theorem dictSet_key_mem (g : Graph) (k : String) (v : TableNode) (t : String) :
    t ∈ keysOf (dictSet g k v) ↔ t = k ∨ t ∈ keysOf g := by
  induction g with
  | nil => simp [dictSet, keysOf]
  | cons e rest ih =>
    rw [dictSet]
    by_cases h : e.1 = k
    · rw [if_pos h]
      simp [keysOf, h]
    · rw [if_neg h]
      simp only [keysOf, List.map_cons, List.mem_cons] at ih ⊢
      rw [ih]
      tauto

/-- Every key produced by the table pass is either an initial key or the name
of a non-skipped table row. -/
theorem tablePass_key_mem (skip : List String) (rows : List TableRow) (g : Graph)
    (t : String) (h : t ∈ keysOf (tablePass skip rows g)) :
    t ∈ keysOf g ∨ ∃ r ∈ rows, r.table_name = t ∧ ¬(skip ≠ [] ∧ t ∈ skip) := by
  induction rows generalizing g with
  | nil => exact Or.inl h
  | cons r rest ih =>
    rw [tablePass] at h
    by_cases hs : skip ≠ [] ∧ r.table_name ∈ skip
    · rw [if_pos hs] at h
      rcases ih _ h with h1 | ⟨r', hr', h2⟩
      · exact Or.inl h1
      · exact Or.inr ⟨r', List.mem_cons_of_mem _ hr', h2⟩
    · rw [if_neg hs] at h
      rcases ih _ h with h1 | ⟨r', hr', h2⟩
      · rcases (dictSet_key_mem g r.table_name _ t).mp h1 with rfl | h3
        · exact Or.inr ⟨r, List.mem_cons_self r rest, rfl, hs⟩
        · exact Or.inl h3
      · exact Or.inr ⟨r', List.mem_cons_of_mem _ hr', h2⟩

/-- Members of a dict after assignment: the assigned pair or an original pair. -/
theorem dictSet_mem (g : Graph) (k : String) (v : TableNode) (e : String × TableNode)
    (h : e ∈ dictSet g k v) : e = (k, v) ∨ e ∈ g := by
  induction g with
  | nil => simpa [dictSet] using h
  | cons e' rest ih =>
    rw [dictSet] at h
    by_cases h' : e'.1 = k
    · rw [if_pos h'] at h
      rcases List.mem_cons.mp h with rfl | h1
      · exact Or.inl rfl
      · exact Or.inr (List.mem_cons_of_mem _ h1)
    · rw [if_neg h'] at h
      rcases List.mem_cons.mp h with rfl | h1
      · exact Or.inr (List.mem_cons_self _ _)
      · rcases ih h1 with h2 | h2
        · exact Or.inl h2
        · exact Or.inr (List.mem_cons_of_mem _ h2)

/-- All nodes installed by the table pass carry an empty foreign-key map. -/
theorem tablePass_fks_nil (skip : List String) (rows : List TableRow) (g : Graph)
    (hg : ∀ e ∈ g, e.2.fks = []) : ∀ e ∈ tablePass skip rows g, e.2.fks = [] := by
  induction rows generalizing g with
  | nil => exact hg
  | cons r rest ih =>
    rw [tablePass]
    by_cases hs : skip ≠ [] ∧ r.table_name ∈ skip
    · rw [if_pos hs]
      exact ih g hg
    · rw [if_neg hs]
      refine ih _ ?_
      intro e he
      rcases dictSet_mem g r.table_name _ e he with rfl | h1
      · rfl
      · exact hg e h1

/-- Target keys of a foreign-key map after `fksAdd`: the added target or an
existing target key. -/
theorem fksAdd_key (fks : List (String × List (String × String × Bool))) (ft : String)
    (tr : String × String × Bool) (pc : String × List (String × String × Bool))
    (h : pc ∈ fksAdd fks ft tr) : pc.1 = ft ∨ pc.1 ∈ fks.map (fun e => e.1) := by
  induction fks with
  | nil =>
    rw [fksAdd] at h
    rcases List.mem_cons.mp h with rfl | h1
    · exact Or.inl rfl
    · cases h1
  | cons e rest ih =>
    rw [fksAdd] at h
    by_cases h' : e.1 = ft
    · rw [if_pos h'] at h
      rcases List.mem_cons.mp h with rfl | h1
      · exact Or.inl rfl
      · exact Or.inr (List.mem_map.mpr ⟨pc, List.mem_cons_of_mem _ h1, rfl⟩)
    · rw [if_neg h'] at h
      rcases List.mem_cons.mp h with rfl | h1
      · exact Or.inr (by simp)
      · rcases ih h1 with h2 | h2
        · exact Or.inl h2
        · exact Or.inr (by simp only [List.map_cons, List.mem_cons]; exact Or.inr h2)

/-- `addEdge` preserves the edge-exclusion invariant when the new edge touches
no excluded table. -/
theorem addEdge_edgesExcl (skip : List String) (g g' : Graph) (owner ft : String)
    (tr : String × String × Bool) (h : addEdge g owner ft tr = some g')
    (ho : owner ∉ skip) (hf : ft ∉ skip) (hg : EdgesExcl skip g) : EdgesExcl skip g' := by
  induction g generalizing g' with
  | nil => cases h
  | cons e rest ih =>
    rw [addEdge] at h
    by_cases he : e.1 = owner
    · rw [if_pos he] at h
      cases h
      intro e' he' pc hpc
      rcases List.mem_cons.mp he' with rfl | h1
      · refine ⟨ho, ?_⟩
        rcases fksAdd_key e.2.fks ft tr pc hpc with h2 | h2
        · rw [h2]; exact hf
        · rcases List.mem_map.mp h2 with ⟨pc0, hpc0, hkey⟩
          have := hg e (List.mem_cons_self _ _) pc0 hpc0
          rw [← hkey]
          exact this.2
      · exact hg e' (List.mem_cons_of_mem _ h1) pc hpc
    · rw [if_neg he] at h
      cases hrec : addEdge rest owner ft tr with
      | none => rw [hrec] at h; cases h
      | some g'' =>
        rw [hrec] at h
        cases h
        intro e' he' pc hpc
        rcases List.mem_cons.mp he' with rfl | h1
        · exact hg e' (List.mem_cons_self _ _) pc hpc
        · refine ih g'' hrec ?_ e' h1 pc hpc
          intro a ha pc' hpc'
          exact hg a (List.mem_cons_of_mem _ ha) pc' hpc'

/-- `fkPass` preserves the edge-exclusion invariant when the exclusion set is
non-empty (so the row filter is active). -/
theorem fkPass_edgesExcl (skip : List String) (rows : List FKRow) (g g' : Graph)
    (hskip : skip ≠ []) (h : fkPass skip rows g = some g') (hg : EdgesExcl skip g) :
    EdgesExcl skip g' := by
  induction rows generalizing g with
  | nil => rw [fkPass] at h; cases h; exact hg
  | cons r rest ih =>
    rw [fkPass] at h
    by_cases hs : skip ≠ [] ∧ (r.table_name ∈ skip ∨ r.foreign_table_name ∈ skip)
    · rw [if_pos hs] at h
      exact ih g h hg
    · rw [if_neg hs] at h
      have hns : r.table_name ∉ skip ∧ r.foreign_table_name ∉ skip := by
        constructor
        · intro hc; exact hs ⟨hskip, Or.inl hc⟩
        · intro hc; exact hs ⟨hskip, Or.inr hc⟩
      cases ha : addEdge g r.table_name r.foreign_table_name
          (r.column_name, r.foreign_column_name, r.nullable) with
      | none => rw [ha] at h; cases h
      | some g'' =>
        rw [ha] at h
        exact ih g'' h (addEdge_edgesExcl skip g g'' _ _ _ ha hns.1 hns.2 hg)

/-- The triple appended by `fksAdd` is present afterwards. -/
theorem edgeInFks_fksAdd_self (fks : List (String × List (String × String × Bool)))
    (ft : String) (tr : String × String × Bool) : edgeInFks (fksAdd fks ft tr) ft tr = true := by
  induction fks with
  | nil => simp [fksAdd, edgeInFks]
  | cons e rest ih =>
    rw [fksAdd]
    by_cases h : e.1 = ft
    · rw [if_pos h]
      simp [edgeInFks]
    · rw [if_neg h]
      simp only [edgeInFks, List.any_cons] at ih ⊢
      rw [ih]
      simp

/-- `fksAdd` keeps every triple that was already present. -/
theorem edgeInFks_fksAdd_mono (fks : List (String × List (String × String × Bool)))
    (ft a : String) (tr b : String × String × Bool) (h : edgeInFks fks a b = true) :
    edgeInFks (fksAdd fks ft tr) a b = true := by
  induction fks with
  | nil => simp [edgeInFks] at h
  | cons e rest ih =>
    rw [fksAdd]
    simp only [edgeInFks, List.any_cons, Bool.or_eq_true] at h
    by_cases h' : e.1 = ft
    · rw [if_pos h']
      simp only [edgeInFks, List.any_cons, Bool.or_eq_true]
      rcases h with h1 | h1
      · left
        simp only [Bool.and_eq_true, decide_eq_true_eq] at h1 ⊢
        exact ⟨by rw [← h']; exact h1.1, by simp [List.mem_append]; exact Or.inl h1.2⟩
      · right
        exact h1
    · rw [if_neg h']
      simp only [edgeInFks, List.any_cons, Bool.or_eq_true]
      rcases h with h1 | h1
      · exact Or.inl h1
      · exact Or.inr (ih h1)

/-- `addEdge` keeps every edge that was already present. -/
theorem addEdge_edgeIn_mono (g g' : Graph) (owner ft : String) (tr : String × String × Bool)
    (h : addEdge g owner ft tr = some g') (a b : String) (c : String × String × Bool)
    (hin : edgeIn g a b c = true) : edgeIn g' a b c = true := by
  induction g generalizing g' with
  | nil => cases h
  | cons e rest ih =>
    rw [addEdge] at h
    by_cases he : e.1 = owner
    · rw [if_pos he] at h
      cases h
      rw [edgeIn, lookupG] at hin ⊢
      by_cases ha : e.1 = a
      · rw [if_pos ha] at hin
        rw [if_pos (by rw [← he]; exact ha)]
        exact edgeInFks_fksAdd_mono _ _ _ _ _ hin
      · rw [if_neg ha] at hin
        rw [if_neg (by rw [← he]; exact ha)]
        exact hin
    · rw [if_neg he] at h
      cases hrec : addEdge rest owner ft tr with
      | none => rw [hrec] at h; cases h
      | some g'' =>
        rw [hrec] at h
        cases h
        rw [edgeIn, lookupG] at hin ⊢
        by_cases ha : e.1 = a
        · rw [if_pos ha] at hin ⊢
          exact hin
        · rw [if_neg ha] at hin ⊢
          have := ih g'' hrec
          rw [edgeIn] at this
          exact this hin

/-- The edge inserted by `addEdge` is present afterwards. -/
theorem addEdge_edgeIn_self (g g' : Graph) (owner ft : String) (tr : String × String × Bool)
    (h : addEdge g owner ft tr = some g') : edgeIn g' owner ft tr = true := by
  induction g generalizing g' with
  | nil => cases h
  | cons e rest ih =>
    rw [addEdge] at h
    by_cases he : e.1 = owner
    · rw [if_pos he] at h
      cases h
      rw [edgeIn, lookupG]
      rw [if_pos rfl]
      exact edgeInFks_fksAdd_self _ _ _
    · rw [if_neg he] at h
      cases hrec : addEdge rest owner ft tr with
      | none => rw [hrec] at h; cases h
      | some g'' =>
        rw [hrec] at h
        cases h
        rw [edgeIn, lookupG]
        rw [if_neg he]
        have := ih g'' hrec
        rw [edgeIn] at this
        exact this

/-- `fkPass` keeps every edge that was already present. -/
theorem fkPass_edgeIn_mono (skip : List String) (rows : List FKRow) (g g' : Graph)
    (h : fkPass skip rows g = some g') (a b : String) (c : String × String × Bool)
    (hin : edgeIn g a b c = true) : edgeIn g' a b c = true := by
  induction rows generalizing g with
  | nil => rw [fkPass] at h; cases h; exact hin
  | cons r rest ih =>
    rw [fkPass] at h
    by_cases hs : skip ≠ [] ∧ (r.table_name ∈ skip ∨ r.foreign_table_name ∈ skip)
    · rw [if_pos hs] at h
      exact ih g h hin
    · rw [if_neg hs] at h
      cases ha : addEdge g r.table_name r.foreign_table_name
          (r.column_name, r.foreign_column_name, r.nullable) with
      | none => rw [ha] at h; cases h
      | some g'' =>
        rw [ha] at h
        exact ih g'' h (addEdge_edgeIn_mono g g'' _ _ _ ha a b c hin)

/-- Every non-excluded foreign-key row processed by `fkPass` ends up as an edge
of the resulting graph. -/
theorem fkPass_complete (skip : List String) (rows : List FKRow) (g g' : Graph)
    (h : fkPass skip rows g = some g') :
    ∀ r ∈ rows, ¬(skip ≠ [] ∧ (r.table_name ∈ skip ∨ r.foreign_table_name ∈ skip)) →
      edgeIn g' r.table_name r.foreign_table_name
        (r.column_name, r.foreign_column_name, r.nullable) = true := by
  induction rows generalizing g with
  | nil => intro r hr; cases hr
  | cons r0 rest ih =>
    intro r hr hns
    rw [fkPass] at h
    by_cases hs : skip ≠ [] ∧ (r0.table_name ∈ skip ∨ r0.foreign_table_name ∈ skip)
    · rw [if_pos hs] at h
      rcases List.mem_cons.mp hr with rfl | hr'
      · exact absurd hs hns
      · exact ih g h r hr' hns
    · rw [if_neg hs] at h
      cases ha : addEdge g r0.table_name r0.foreign_table_name
          (r0.column_name, r0.foreign_column_name, r0.nullable) with
      | none => rw [ha] at h; cases h
      | some g'' =>
        rw [ha] at h
        rcases List.mem_cons.mp hr with rfl | hr'
        · exact fkPass_edgeIn_mono skip rest g'' g' h _ _ _
            (addEdge_edgeIn_self g g'' _ _ _ ha)
        · exact ih g'' h r hr' hns

/-- C5 (amended): on every successful build, (i) no excluded table is a node,
(ii) no edge touches an excluded table on either endpoint, and (iii) every
foreign-key row that survives the exclusion filter becomes an edge under its
owning table's node — WITHOUT any check that the referenced table is itself a
node, so edge targets need not be keys of the graph. -/
theorem build_graph_invariants (tableRows : List TableRow) (fkRows : List FKRow)
    (skip : List String) (g : Graph) (hg : build_graph tableRows fkRows skip = some g) :
    (skip ≠ [] → ∀ t ∈ keysOf g, t ∉ skip) ∧
    (skip ≠ [] → ∀ e ∈ g, ∀ pc ∈ e.2.fks, e.1 ∉ skip ∧ pc.1 ∉ skip) ∧
    (∀ r ∈ fkRows, ¬(skip ≠ [] ∧ (r.table_name ∈ skip ∨ r.foreign_table_name ∈ skip)) →
      edgeIn g r.table_name r.foreign_table_name
        (r.column_name, r.foreign_column_name, r.nullable) = true) := by
  unfold build_graph at hg
  refine ⟨?_, ?_, ?_⟩
  · intro hskip t ht
    rw [fkPass_keys skip fkRows _ g hg] at ht
    rcases tablePass_key_mem skip tableRows [] t ht with h1 | ⟨r, _, rfl, h2⟩
    · simp [keysOf] at h1
    · intro hc
      exact h2 ⟨hskip, hc⟩
  · intro hskip
    refine fkPass_edgesExcl skip fkRows _ g hskip hg ?_
    intro e he pc hpc
    rw [tablePass_fks_nil skip tableRows [] (by intro e' he'; cases he') e he] at hpc
    cases hpc
  · exact fkPass_complete skip fkRows _ g hg

/-- Counterexample to C5 as stated: a foreign-key row referencing a table `v`
absent from the table rows (e.g., a view) is NOT silently dropped — the edge is
inserted under its owner `a`, and its target `v` is not a key of the resulting
graph. -/
theorem build_graph_dangling_target :
    build_graph [⟨"a", ["id"]⟩] [⟨"fk1", "a", "a_vid", "v", "vid", false⟩] [] =
      some [("a", ⟨["id"], [("v", [("a_vid", "vid", false)])]⟩)] ∧
    "v" ∉ keysOf [("a", (⟨["id"], [("v", [("a_vid", "vid", false)])]⟩ : TableNode))] := by
  decide

/-- Witness for C5 at a concrete input with a non-empty exclusion set. -/
theorem build_graph_invariants_witness :
    (["x"] ≠ ([] : List String) →
      ∀ t ∈ keysOf [("a", (⟨["id"], [("b", [("b_id", "id", false)])]⟩ : TableNode)),
        ("b", ⟨["id"], []⟩)], t ∉ ["x"]) ∧
    (["x"] ≠ ([] : List String) →
      ∀ e ∈ [("a", (⟨["id"], [("b", [("b_id", "id", false)])]⟩ : TableNode)),
        ("b", ⟨["id"], []⟩)], ∀ pc ∈ e.2.fks, e.1 ∉ ["x"] ∧ pc.1 ∉ ["x"]) ∧
    (∀ r ∈ [(⟨"fk1", "a", "b_id", "b", "id", false⟩ : FKRow),
        ⟨"fk2", "a", "x_id", "x", "id", true⟩],
      ¬((["x"] : List String) ≠ [] ∧ (r.table_name ∈ ["x"] ∨ r.foreign_table_name ∈ ["x"])) →
      edgeIn [("a", ⟨["id"], [("b", [("b_id", "id", false)])]⟩), ("b", ⟨["id"], []⟩)]
        r.table_name r.foreign_table_name
        (r.column_name, r.foreign_column_name, r.nullable) = true) :=
  build_graph_invariants
    [⟨"a", ["id"]⟩, ⟨"b", ["id"]⟩, ⟨"x", ["id"]⟩]
    [⟨"fk1", "a", "b_id", "b", "id", false⟩, ⟨"fk2", "a", "x_id", "x", "id", true⟩]
    ["x"] _ (by decide)

/-- A successful dict lookup exhibits a member of the association list. -/
theorem lookupG_mem (g : Graph) (t : String) (n : TableNode) (h : lookupG g t = some n) :
    (t, n) ∈ g := by
  induction g with
  | nil => cases h
  | cons e rest ih =>
    rw [lookupG] at h
    by_cases he : e.1 = t
    · rw [if_pos he] at h
      injection h with h
      rw [← he, ← h]
      exact List.mem_cons_self _ _
    · rw [if_neg he] at h
      exact List.mem_cons_of_mem _ (ih h)

/-- Every flattened edge names a target key of the foreign-key map and is not a
self-edge. -/
theorem flatEdges_key (t : String) (fks : List (String × List (String × String × Bool)))
    (q : String × String × String × Bool) (h : q ∈ flatEdges t fks) :
    ∃ pc ∈ fks, pc.1 = q.1 ∧ q.1 ≠ t := by
  induction fks with
  | nil => cases h
  | cons e rest ih =>
    obtain ⟨parent, cols⟩ := e
    rw [flatEdges] at h
    by_cases he : parent = t
    · rw [if_pos he] at h
      obtain ⟨pc, hpc, h1, h2⟩ := ih h
      exact ⟨pc, List.mem_cons_of_mem _ hpc, h1, h2⟩
    · rw [if_neg he] at h
      rcases List.mem_append.mp h with h1 | h1
      · rcases List.mem_map.mp h1 with ⟨c, _, rfl⟩
        exact ⟨(parent, cols), List.mem_cons_self _ _, rfl, he⟩
      · obtain ⟨pc, hpc, h2, h3⟩ := ih h1
        exact ⟨pc, List.mem_cons_of_mem _ hpc, h2, h3⟩

/-- Unfolding of `chainOk` on the empty chain. -/
theorem chainOk_nil (g : Graph) (root t : String) :
    chainOk g root t [] = decide (t = root) := rfl

/-- Unfolding of `chainOk` on a hop, with the table's node given. -/
theorem chainOk_cons_lookup (g : Graph) (root t parent fc tc : String) (rest : List Hop)
    (node : TableNode) (hlk : lookupG g t = some node) :
    chainOk g root t ((parent, fc, tc) :: rest) =
      (decide ((parent, fc, tc, false) ∈ flatEdges t node.fks) &&
        chainOk g root parent rest) := by
  have h : chainOk g root t ((parent, fc, tc) :: rest) =
      match lookupG g t with
      | none => false
      | some node =>
        decide ((parent, fc, tc, false) ∈ flatEdges t node.fks) &&
          chainOk g root parent rest := rfl
  rw [h, hlk]

/-- A chain through a table with no node is never valid. -/
theorem chainOk_cons_none (g : Graph) (root t parent fc tc : String) (rest : List Hop)
    (hlk : lookupG g t = none) :
    chainOk g root t ((parent, fc, tc) :: rest) = false := by
  have h : chainOk g root t ((parent, fc, tc) :: rest) =
      match lookupG g t with
      | none => false
      | some node =>
        decide ((parent, fc, tc, false) ∈ flatEdges t node.fks) &&
          chainOk g root parent rest := rfl
  rw [h, hlk]

/-- Unfolding of `find_joins` at positive fuel on a non-root table whose node
is known. -/
theorem find_joins_succ_lookup (g : Graph) (root : String) (f : Nat) (table : String)
    (path : Option (List Hop)) (node : TableNode) (ht : ¬table = root)
    (hlk : lookupG g table = some node) :
    find_joins g root (f + 1) table path =
      match collectCands (find_joins g root f) (path.getD []) (flatEdges table node.fks) with
      | .error e => .error e
      | .ok cands => .ok (sortByLen cands).head? := by
  rw [find_joins_succ, if_neg ht, hlk]

/-- Searching with the default path and with the explicit empty path agree away
from the root. -/
theorem find_joins_none_eq (g : Graph) (root table : String) (fuel : Nat)
    (h : ¬table = root) :
    find_joins g root (fuel + 1) table none = find_joins g root (fuel + 1) table (some []) := by
  rw [find_joins_succ, find_joins_succ, if_neg h, if_neg h]
  rfl

/-- Membership is preserved by length-sorted insertion. -/
theorem insertLen_mem (x y : List Hop) (l : List (List Hop)) :
    x ∈ insertLen y l ↔ x = y ∨ x ∈ l := by
  induction l with
  | nil => simp [insertLen]
  | cons z zs ih =>
    rw [insertLen]
    by_cases h : y.length ≤ z.length
    · rw [if_pos h]
      simp
    · rw [if_neg h]
      simp only [List.mem_cons, ih]
      tauto

/-- Membership is preserved by the length sort. -/
theorem sortByLen_mem (x : List Hop) (l : List (List Hop)) :
    x ∈ sortByLen l ↔ x ∈ l := by
  induction l with
  | nil => simp [sortByLen]
  | cons z zs ih =>
    rw [sortByLen, insertLen_mem]
    simp only [List.mem_cons, ih]

/-- The head of the length sort of a non-empty list is a member of minimal
length. -/
theorem sortByLen_head_min (l : List (List Hop)) (h : l ≠ []) :
    ∃ m, (sortByLen l).head? = some m ∧ m ∈ l ∧ ∀ x ∈ l, m.length ≤ x.length := by
  induction l with
  | nil => exact absurd rfl h
  | cons c cs ih =>
    cases cs with
    | nil =>
      refine ⟨c, rfl, List.mem_cons_self _ _, ?_⟩
      intro x hx
      rcases List.mem_cons.mp hx with rfl | hx
      · exact le_refl _
      · cases hx
    | cons c2 cs2 =>
      obtain ⟨m, hm, hmem, hmin⟩ := ih (by simp)
      rw [sortByLen]
      cases hs : sortByLen (c2 :: cs2) with
      | nil => rw [hs] at hm; cases hm
      | cons m' t =>
        rw [hs] at hm
        injection hm with hm
        rw [← hm] at hmem hmin
        rw [insertLen]
        by_cases hc : c.length ≤ m'.length
        · rw [if_pos hc]
          refine ⟨c, rfl, List.mem_cons_self _ _, ?_⟩
          intro x hx
          rcases List.mem_cons.mp hx with rfl | hx
          · exact le_refl _
          · exact le_trans hc (hmin x hx)
        · rw [if_neg hc]
          refine ⟨m', rfl, List.mem_cons_of_mem _ hmem, ?_⟩
          intro x hx
          rcases List.mem_cons.mp hx with rfl | hx
          · exact le_of_lt (lt_of_not_le hc)
          · exact hmin x hx

/-- Unfolding of `find_joins` at positive fuel, non-root table, known node and
explicit path. -/
theorem find_joins_succ_some (g : Graph) (root : String) (f : Nat) (table : String)
    (p : List Hop) (node : TableNode) (ht : ¬table = root)
    (hlk : lookupG g table = some node) :
    find_joins g root (f + 1) table (some p) =
      match collectCands (find_joins g root f) p (flatEdges table node.fks) with
      | .error e => .error e
      | .ok cands => .ok (sortByLen cands).head? := by
  rw [find_joins_succ_lookup g root f table (some p) node ht hlk]
  rfl

/-- Soundness of the candidate collection: assuming soundness of the recursive
calls, every collected candidate extends `p` by one valid hop followed by a
valid chain. -/
theorem collectCands_sound (g : Graph) (root : String) (fuel : Nat) (p : List Hop)
    (ih : ∀ table q c, find_joins g root fuel table (some q) = .ok (some c) →
      ∃ s, c = q ++ s ∧ chainOk g root table s = true ∧ (s = [] ↔ table = root))
    (table : String) (node : TableNode) (hlk : lookupG g table = some node) :
    ∀ edges, (∀ q ∈ edges, q ∈ flatEdges table node.fks) →
      ∀ cands, collectCands (find_joins g root fuel) p edges = .ok cands →
      ∀ d ∈ cands, ∃ parent fc tc s, d = p ++ (parent, fc, tc) :: s ∧
        chainOk g root table ((parent, fc, tc) :: s) = true := by
  intro edges
  induction edges with
  | nil =>
    intro _ cands hc d hd
    rw [collectCands] at hc
    injection hc with hc
    rw [← hc] at hd
    cases hd
  | cons q rest ihe =>
    intro hsub cands hc d hd
    obtain ⟨parent, fc, tc, nb⟩ := q
    rw [collectCands] at hc
    by_cases hnb : nb = true
    · rw [if_pos hnb] at hc
      exact ihe (fun q' hq' => hsub q' (List.mem_cons_of_mem _ hq')) cands hc d hd
    · rw [if_neg hnb] at hc
      cases hr : find_joins g root fuel parent (some (p ++ [(parent, fc, tc)])) with
      | error e => rw [hr] at hc; cases hc
      | ok found =>
        rw [hr] at hc
        cases hrest : collectCands (find_joins g root fuel) p rest with
        | error e => rw [hrest] at hc; cases hc
        | ok cs =>
          rw [hrest] at hc
          injection hc with hc
          by_cases htr : truthy found = true
          · rw [if_pos htr] at hc
            rw [← hc] at hd
            rcases List.mem_cons.mp hd with rfl | hd'
            · cases found with
              | none => cases htr
              | some l =>
                obtain ⟨s, hs, hchain, _⟩ := ih parent _ l hr
                refine ⟨parent, fc, tc, s, ?_, ?_⟩
                · simp only [Option.getD_some]
                  rw [hs, List.append_assoc, List.singleton_append]
                · rw [chainOk_cons_lookup g root table parent fc tc s node hlk]
                  have hnb' : nb = false := by revert hnb; cases nb <;> simp
                  have hm : (parent, fc, tc, false) ∈ flatEdges table node.fks := by
                    have h0 := hsub (parent, fc, tc, nb) (List.mem_cons_self _ _)
                    rwa [hnb'] at h0
                  simp [hm, hchain]
            · exact ihe (fun q' hq' => hsub q' (List.mem_cons_of_mem _ hq')) cs hrest d hd'
          · rw [if_neg htr] at hc
            rw [← hc] at hd
            exact ihe (fun q' hq' => hsub q' (List.mem_cons_of_mem _ hq')) cs hrest d hd

/-- Soundness of `find_joins`: a returned truthy path extends the passed prefix
by a valid chain, which is empty exactly when the search started at the root. -/
theorem find_joins_sound (g : Graph) (root : String) :
    ∀ fuel table p c, find_joins g root fuel table (some p) = .ok (some c) →
      ∃ s, c = p ++ s ∧ chainOk g root table s = true ∧ (s = [] ↔ table = root) := by
  intro fuel
  induction fuel with
  | zero =>
    intro table p c h
    cases h
  | succ f ihf =>
    intro table p c h
    by_cases ht : table = root
    · rw [find_joins_succ, if_pos ht] at h
      injection h with h
      injection h with h
      refine ⟨[], by rw [← h]; simp, ?_, by simp [ht]⟩
      rw [chainOk_nil]
      exact decide_eq_true ht
    · cases hlk : lookupG g table with
      | none =>
        rw [find_joins_succ, if_neg ht, hlk] at h
        cases h
      | some node =>
        cases hcc : collectCands (find_joins g root f) p (flatEdges table node.fks) with
        | error e =>
          have h2 : find_joins g root (f + 1) table (some p) = .error e := by
            rw [find_joins_succ_some g root f table p node ht hlk, hcc]
          rw [h2] at h
          cases h
        | ok cands =>
          have h2 : find_joins g root (f + 1) table (some p) =
              .ok (sortByLen cands).head? := by
            rw [find_joins_succ_some g root f table p node ht hlk, hcc]
          rw [h2] at h
          injection h with h
          have hcmem : c ∈ cands := by
            rw [← sortByLen_mem]
            cases hsort : sortByLen cands with
            | nil => rw [hsort] at h; cases h
            | cons m t =>
              rw [hsort] at h
              injection h with h
              rw [← h]
              exact List.mem_cons_self _ _
          obtain ⟨parent, fc, tc, s, hdd, hchain⟩ :=
            collectCands_sound g root f p ihf table node hlk (flatEdges table node.fks)
              (fun q hq => hq) cands hcc c hcmem
          refine ⟨(parent, fc, tc) :: s, hdd, hchain, ?_⟩
          simp [ht]

/-- If the recursive call on every non-nullable edge succeeds, candidate
collection succeeds. -/
theorem collectCands_ok (rec : String → Option (List Hop) → Except PyErr (Option (List Hop)))
    (p : List Hop) :
    ∀ edges, (∀ q ∈ edges, q.2.2.2 = false →
        ∃ r, rec q.1 (some (p ++ [(q.1, q.2.1, q.2.2.1)])) = .ok r) →
      ∃ cs, collectCands rec p edges = .ok cs := by
  intro edges
  induction edges with
  | nil => exact fun _ => ⟨[], rfl⟩
  | cons q rest ih =>
    intro h
    obtain ⟨parent, fc, tc, nb⟩ := q
    rw [collectCands]
    by_cases hnb : nb = true
    · rw [if_pos hnb]
      exact ih (fun q' hq' => h q' (List.mem_cons_of_mem _ hq'))
    · rw [if_neg hnb]
      have hnb' : nb = false := by revert hnb; cases nb <;> simp
      obtain ⟨r, hr⟩ := h (parent, fc, tc, nb) (List.mem_cons_self _ _) hnb'
      rw [hr]
      obtain ⟨cs, hcs⟩ := ih (fun q' hq' => h q' (List.mem_cons_of_mem _ hq'))
      rw [hcs]
      exact ⟨_, rfl⟩

/-- Termination of `find_joins`: on a closed graph whose non-nullable non-self
edges are ranked, the search returns without error once the fuel exceeds the
start table's rank. -/
theorem find_joins_ok (g : Graph) (root : String) (rank : String → Nat)
    (hclosed : closedG g) (hrank : RankOk g rank) :
    ∀ fuel table path, (lookupG g table).isSome = true → rank table < fuel →
      ∃ r, find_joins g root fuel table path = .ok r := by
  intro fuel
  induction fuel with
  | zero =>
    intro table path _ hr
    exact absurd hr (Nat.not_lt_zero _)
  | succ f ihf =>
    intro table path hs hr
    by_cases ht : table = root
    · rw [find_joins_succ, if_pos ht]
      exact ⟨path, rfl⟩
    · obtain ⟨node, hlk⟩ := Option.isSome_iff_exists.mp hs
      have hmemg : (table, node) ∈ g := lookupG_mem g table node hlk
      obtain ⟨cs, hcs⟩ :=
        collectCands_ok (find_joins g root f) (path.getD []) (flatEdges table node.fks)
          (by
            intro q hq hqn
            obtain ⟨pc, hpc, hpck, _⟩ := flatEdges_key table node.fks q hq
            have hsq : (lookupG g q.1).isSome = true := by
              rw [← hpck]
              exact hclosed (table, node) hmemg pc hpc
            have hrq : rank q.1 < rank table := hrank (table, node) hmemg q hq hqn
            exact ihf q.1 _ hsq (by omega))
      rw [find_joins_succ_lookup g root f table path node ht hlk, hcs]
      exact ⟨_, rfl⟩

/-- Evaluation of `find_joins` when candidate collection succeeds. -/
theorem find_joins_eval_ok (g : Graph) (root : String) (f : Nat) (table : String)
    (p : List Hop) (node : TableNode) (ht : ¬table = root)
    (hlk : lookupG g table = some node) (cs : List (List Hop))
    (hcs : collectCands (find_joins g root f) p (flatEdges table node.fks) = .ok cs) :
    find_joins g root (f + 1) table (some p) = .ok (sortByLen cs).head? := by
  rw [find_joins_succ_some g root f table p node ht hlk, hcs]

/-- Evaluation of `find_joins` when candidate collection raises. -/
theorem find_joins_eval_error (g : Graph) (root : String) (f : Nat) (table : String)
    (p : List Hop) (node : TableNode) (ht : ¬table = root)
    (hlk : lookupG g table = some node) (e : PyErr)
    (hcs : collectCands (find_joins g root f) p (flatEdges table node.fks) = .error e) :
    find_joins g root (f + 1) table (some p) = .error e := by
  rw [find_joins_succ_some g root f table p node ht hlk, hcs]

/-- A candidate produced by a successful truthy recursive call on a listed
non-nullable edge is collected. -/
theorem collectCands_mem (rec : String → Option (List Hop) → Except PyErr (Option (List Hop)))
    (p : List Hop) :
    ∀ edges cs, collectCands rec p edges = .ok cs →
      ∀ parent fc tc, (parent, fc, tc, false) ∈ edges →
      ∀ d, rec parent (some (p ++ [(parent, fc, tc)])) = .ok (some d) → d ≠ [] → d ∈ cs := by
  intro edges
  induction edges with
  | nil =>
    intro cs _ parent fc tc hmem
    cases hmem
  | cons q rest ih =>
    intro cs hc parent fc tc hmem d hd hdne
    rcases List.mem_cons.mp hmem with heq | hmem'
    · subst heq
      rw [collectCands] at hc
      rw [if_neg Bool.false_ne_true] at hc
      rw [hd] at hc
      cases hrest : collectCands rec p rest with
      | error e => rw [hrest] at hc; cases hc
      | ok cs' =>
        rw [hrest] at hc
        injection hc with hc
        have htr : truthy (some d) = true := by
          cases d with
          | nil => exact absurd rfl hdne
          | cons a l => rfl
        rw [if_pos htr] at hc
        rw [← hc]
        simp only [Option.getD_some]
        exact List.mem_cons_self _ _
    · obtain ⟨qp, qf, qt, qn⟩ := q
      rw [collectCands] at hc
      by_cases hnb : qn = true
      · rw [if_pos hnb] at hc
        exact ih cs hc parent fc tc hmem' d hd hdne
      · rw [if_neg hnb] at hc
        cases hr : rec qp (some (p ++ [(qp, qf, qt)])) with
        | error e => rw [hr] at hc; cases hc
        | ok found =>
          rw [hr] at hc
          cases hrest : collectCands rec p rest with
          | error e => rw [hrest] at hc; cases hc
          | ok cs' =>
            rw [hrest] at hc
            injection hc with hc
            have hdin : d ∈ cs' := ih cs' hrest parent fc tc hmem' d hd hdne
            rw [← hc]
            by_cases htr : truthy found = true
            · rw [if_pos htr]
              exact List.mem_cons_of_mem _ hdin
            · rw [if_neg htr]
              exact hdin

/-- Along a valid chain the rank strictly decreases, so a non-empty valid
chain forces the start table's rank strictly above the root's. -/
theorem chainOk_rank (g : Graph) (root : String) (rank : String → Nat) (hrank : RankOk g rank) :
    ∀ c t, chainOk g root t c = true → rank root ≤ rank t ∧ (c ≠ [] → rank root < rank t) := by
  intro c
  induction c with
  | nil =>
    intro t hc
    rw [chainOk_nil] at hc
    have ht := of_decide_eq_true hc
    subst ht
    exact ⟨le_refl _, fun h => absurd rfl h⟩
  | cons hop rest ih =>
    intro t hc
    obtain ⟨parent, fc, tc⟩ := hop
    cases hlk : lookupG g t with
    | none =>
      rw [chainOk_cons_none g root t parent fc tc rest hlk] at hc
      cases hc
    | some node =>
      rw [chainOk_cons_lookup g root t parent fc tc rest node hlk] at hc
      simp only [Bool.and_eq_true, decide_eq_true_eq] at hc
      obtain ⟨hm, hcr⟩ := hc
      have h1 := ih parent hcr
      have hlt : rank parent < rank t :=
        hrank (t, node) (lookupG_mem g t node hlk) (parent, fc, tc, false) hm rfl
      exact ⟨le_trans h1.1 (le_of_lt hlt), fun _ => lt_of_le_of_lt h1.1 hlt⟩

/-- Completeness bound for `find_joins`: given any valid chain, the search
returns a truthy path no longer than the passed prefix plus that chain. -/
theorem find_joins_le (g : Graph) (root : String) (rank : String → Nat)
    (hclosed : closedG g) (hrank : RankOk g rank) :
    ∀ c table p fuel, (lookupG g table).isSome = true → rank table < fuel →
      chainOk g root table c = true →
      ∃ c0, find_joins g root fuel table (some p) = .ok (some c0) ∧
        c0.length ≤ p.length + c.length := by
  intro c
  induction c with
  | nil =>
    intro table p fuel _ hf hc
    rw [chainOk_nil] at hc
    have ht := of_decide_eq_true hc
    obtain ⟨f, rfl⟩ : ∃ f, fuel = f + 1 := ⟨fuel - 1, by omega⟩
    rw [find_joins_succ, if_pos ht]
    exact ⟨p, rfl, by simp⟩
  | cons hop rest ih =>
    intro table p fuel hs hf hc
    obtain ⟨parent, fc, tc⟩ := hop
    obtain ⟨node, hlk⟩ := Option.isSome_iff_exists.mp hs
    rw [chainOk_cons_lookup g root table parent fc tc rest node hlk] at hc
    simp only [Bool.and_eq_true, decide_eq_true_eq] at hc
    obtain ⟨hm, hcr⟩ := hc
    obtain ⟨f, rfl⟩ : ∃ f, fuel = f + 1 := ⟨fuel - 1, by omega⟩
    by_cases ht : table = root
    · rw [find_joins_succ, if_pos ht]
      refine ⟨p, rfl, ?_⟩
      simp only [List.length_cons]
      omega
    · have hmemg : (table, node) ∈ g := lookupG_mem g table node hlk
      have hrankp : rank parent < rank table :=
        hrank (table, node) hmemg (parent, fc, tc, false) hm rfl
      have hsp : (lookupG g parent).isSome = true := by
        obtain ⟨pc, hpc, hpck, _⟩ := flatEdges_key table node.fks _ hm
        have := hclosed (table, node) hmemg pc hpc
        rwa [hpck] at this
      have hfp : rank parent < f := by omega
      obtain ⟨d, hd, hdlen⟩ := ih parent (p ++ [(parent, fc, tc)]) f hsp hfp hcr
      obtain ⟨cs, hcs⟩ :=
        collectCands_ok (find_joins g root f) p (flatEdges table node.fks)
          (by
            intro q hq hqn
            obtain ⟨pc, hpc, hpck, _⟩ := flatEdges_key table node.fks q hq
            have hsq : (lookupG g q.1).isSome = true := by
              have := hclosed (table, node) hmemg pc hpc
              rwa [hpck] at this
            have hrq : rank q.1 < rank table := hrank (table, node) hmemg q hq hqn
            exact find_joins_ok g root rank hclosed hrank f q.1 _ hsq (by omega))
      have hdin : d ∈ cs := by
        refine collectCands_mem (find_joins g root f) p (flatEdges table node.fks) cs hcs
          parent fc tc hm d hd ?_
        obtain ⟨s, hds, _, _⟩ := find_joins_sound g root f parent _ d hd
        rw [hds]
        simp
      obtain ⟨m, hmhead, hmmem, hmmin⟩ := sortByLen_head_min cs (List.ne_nil_of_mem hdin)
      refine ⟨m, ?_, ?_⟩
      · rw [find_joins_eval_ok g root f table p node ht hlk cs hcs, hmhead]
      · have h1 : m.length ≤ d.length := hmmin d hdin
        have h2 : (p ++ [(parent, fc, tc)]).length = p.length + 1 := by simp
        rw [h2] at hdlen
        simp only [List.length_cons]
        omega

/-- Helper: a non-root table admitting no valid chain makes `find_joins`
return `None`. -/
theorem find_joins_none_of_no_chain (g : Graph) (root T : String) (rank : String → Nat)
    (fuel : Nat) (hclosed : closedG g) (hrank : RankOk g rank)
    (hT : (lookupG g T).isSome = true) (hfuel : rank T < fuel) (hTroot : ¬T = root)
    (hnochain : ∀ c, chainOk g root T c = false) :
    find_joins g root fuel T none = .ok none := by
  obtain ⟨r, hr⟩ := find_joins_ok g root rank hclosed hrank fuel T none hT hfuel
  cases r with
  | none => exact hr
  | some c =>
    obtain ⟨f, rfl⟩ : ∃ f, fuel = f + 1 := ⟨fuel - 1, by omega⟩
    rw [find_joins_none_eq g root T f hTroot] at hr
    obtain ⟨s, _, hchain, _⟩ := find_joins_sound g root (f + 1) T [] c hr
    rw [hnochain s] at hchain
    cases hchain

/-- C1: on a closed graph whose non-nullable non-self foreign-key edge
relation is acyclic (witnessed by a rank strictly decreasing along every such
edge) and with recursion depth above the start table's rank, whenever at least
one non-empty valid chain of non-nullable, non-self foreign-key hops connects
`T` back to `root`, `find_joins` returns such a chain with the fewest hops
among all valid chains. -/
theorem find_joins_minimal (g : Graph) (root T : String) (rank : String → Nat) (fuel : Nat)
    (hclosed : closedG g) (hrank : RankOk g rank)
    (hT : (lookupG g T).isSome = true) (hfuel : rank T < fuel)
    (c : List Hop) (hc : chainOk g root T c = true) (hcne : c ≠ []) :
    ∃ c0, find_joins g root fuel T none = .ok (some c0) ∧
      chainOk g root T c0 = true ∧ c0 ≠ [] ∧
      ∀ c', chainOk g root T c' = true → c0.length ≤ c'.length := by
  have hlt : rank root < rank T := (chainOk_rank g root rank hrank c T hc).2 hcne
  have hTroot : ¬T = root := fun h => by rw [h] at hlt; exact lt_irrefl _ hlt
  obtain ⟨f, rfl⟩ : ∃ f, fuel = f + 1 := ⟨fuel - 1, by omega⟩
  obtain ⟨c0, hc0, _⟩ := find_joins_le g root rank hclosed hrank c T [] (f + 1) hT hfuel hc
  obtain ⟨s, hs, hchain, hiff⟩ := find_joins_sound g root (f + 1) T [] c0 hc0
  rw [List.nil_append] at hs
  subst hs
  rw [find_joins_none_eq g root T f hTroot]
  refine ⟨c0, hc0, hchain, fun h => hTroot (hiff.mp h), ?_⟩
  intro c' hc'
  obtain ⟨c1, hc1, hlen1⟩ := find_joins_le g root rank hclosed hrank c' T [] (f + 1) hT hfuel hc'
  rw [hc0] at hc1
  injection hc1 with hc1
  injection hc1 with hc1
  rw [hc1]
  simpa using hlen1

/-- Witness for C1 on a concrete two-table graph. -/
theorem find_joins_minimal_witness :
    ∃ c0, find_joins exG1 "r" 2 "a" none = .ok (some c0) ∧
      chainOk exG1 "r" "a" c0 = true ∧ c0 ≠ [] ∧
      ∀ c', chainOk exG1 "r" "a" c' = true → c0.length ≤ c'.length :=
  find_joins_minimal exG1 "r" "a" (fun t => if t = "a" then 1 else 0) 2
    (by decide) (by decide) (by decide) (by decide)
    [("r", "r_id", "id")] (by decide) (by decide)

/-- C2 (amended): `find_joins` terminates on closed graphs whose non-nullable
non-self edges are acyclic (ranked), and returns `None` for a non-root table
with no valid chain to the root; the claim's revisit guard, however, does not
exist in the code — on a cyclic graph the recursion diverges (see the
counterexample). -/
theorem find_joins_acyclic_terminates (g : Graph) (root T : String) (rank : String → Nat)
    (fuel : Nat) (hclosed : closedG g) (hrank : RankOk g rank)
    (hT : (lookupG g T).isSome = true) (hfuel : rank T < fuel) :
    (∃ r, find_joins g root fuel T none = .ok r) ∧
    (¬T = root → (∀ c, chainOk g root T c = false) →
      find_joins g root fuel T none = .ok none) :=
  ⟨find_joins_ok g root rank hclosed hrank fuel T none hT hfuel,
   fun hTroot hnochain =>
     find_joins_none_of_no_chain g root T rank fuel hclosed hrank hT hfuel hTroot hnochain⟩

/-- Helper: the unrelated table `a` of `exG6` admits no valid chain at all. -/
theorem exG6_no_chain : ∀ c, chainOk exG6 "r" "a" c = false := by
  intro c
  cases c with
  | nil => rfl
  | cons hop rest =>
    obtain ⟨parent, fc, tc⟩ := hop
    rw [chainOk_cons_lookup exG6 "r" "a" parent fc tc rest ⟨["id"], []⟩ rfl]
    simp [flatEdges]

/-- Witness for C2's amended statement on a concrete acyclic graph. -/
theorem find_joins_acyclic_terminates_witness :
    (∃ r, find_joins exG6 "r" 1 "a" none = .ok r) ∧
    (¬"a" = "r" → (∀ c, chainOk exG6 "r" "a" c = false) →
      find_joins exG6 "r" 1 "a" none = .ok none) :=
  find_joins_acyclic_terminates exG6 "r" "a" (fun _ => 0) 1
    (by decide) (by decide) (by decide) (by decide)

/-- Helper: on the cyclic graph `gcyc` the search from `a` (or `b`) exhausts
every finite recursion depth — the Python original recurses forever. -/
theorem gcyc_noFuel : ∀ fuel (p : Option (List Hop)),
    find_joins gcyc "r" fuel "a" p = .error .noFuel ∧
    find_joins gcyc "r" fuel "b" p = .error .noFuel := by
  intro fuel
  induction fuel with
  | zero => intro p; exact ⟨rfl, rfl⟩
  | succ f ih =>
    intro p
    constructor
    · have hlk : lookupG gcyc "a" = some ⟨["id"], [("b", [("b_id", "id", false)])]⟩ := rfl
      have hcc : collectCands (find_joins gcyc "r" f) (p.getD [])
          (flatEdges "a" (TableNode.mk ["id"] [("b", [("b_id", "id", false)])]).fks) =
          .error .noFuel := by
        have hfe : flatEdges "a" (TableNode.mk ["id"] [("b", [("b_id", "id", false)])]).fks =
            [("b", "b_id", "id", false)] := rfl
        rw [hfe, collectCands]
        rw [if_neg Bool.false_ne_true]
        rw [(ih (some (p.getD [] ++ [("b", "b_id", "id")]))).2]
      rw [find_joins_succ_lookup gcyc "r" f "a" p _ (by decide) hlk, hcc]
    · have hlk : lookupG gcyc "b" = some ⟨["id"], [("a", [("a_id", "id", false)])]⟩ := rfl
      have hcc : collectCands (find_joins gcyc "r" f) (p.getD [])
          (flatEdges "b" (TableNode.mk ["id"] [("a", [("a_id", "id", false)])]).fks) =
          .error .noFuel := by
        have hfe : flatEdges "b" (TableNode.mk ["id"] [("a", [("a_id", "id", false)])]).fks =
            [("a", "a_id", "id", false)] := rfl
        rw [hfe, collectCands]
        rw [if_neg Bool.false_ne_true]
        rw [(ih (some (p.getD [] ++ [("a", "a_id", "id")]))).1]
      rw [find_joins_succ_lookup gcyc "r" f "b" p _ (by decide) hlk, hcc]

/-- C2 counterexample: on the concrete closed graph whose non-nullable edges
form the 2-cycle `a ↔ b` not through the root `r`, `find_joins(a, r, graph)`
has no value at any recursion depth — the code holds no revisit guard, so the
Python original raises `RecursionError` instead of terminating with `None`. -/
theorem find_joins_cycle_no_result :
    ¬∃ fuel r, find_joins gcyc "r" fuel "a" none = .ok r := by
  rintro ⟨fuel, r, hr⟩
  rw [(gcyc_noFuel fuel none).1] at hr
  cases hr

/-- C6: for every table that is not the root and admits no valid non-nullable
chain to the root, the statement emitted by `table_data` is the unfiltered
full-table selection `SELECT * FROM child` with no WHERE clause and no joins. -/
theorem table_data_no_path_statement (g : Graph) (root rootId : String)
    (rank : String → Nat) (fuel : Nat) (child : String) (info : TableNode)
    (hclosed : closedG g) (hrank : RankOk g rank)
    (hlk : lookupG g child = some info) (hpks : info.pks ≠ [])
    (hfuel : rank child < fuel) (hne : ¬child = root)
    (hnochain : ∀ c, chainOk g root child c = false) :
    buildStmt g root rootId fuel child info = .ok ("SELECT * FROM " ++ child) := by
  have hjoins : find_joins g root fuel child none = .ok none :=
    find_joins_none_of_no_chain g root child rank fuel hclosed hrank
      (by rw [hlk]; rfl) hfuel hne hnochain
  obtain ⟨pk, rest, hp⟩ := List.exists_cons_of_ne_nil hpks
  unfold buildStmt
  rw [hp, hjoins]
  simp [truthy, hne]

/-- Witness for C6 on a concrete graph with an unrelated table. -/
theorem table_data_no_path_statement_witness :
    buildStmt exG6 "r" "42" 1 "a" ⟨["id"], []⟩ = .ok ("SELECT * FROM " ++ "a") :=
  table_data_no_path_statement exG6 "r" "42" (fun _ => 0) 1 "a" ⟨["id"], []⟩
    (by decide) (by decide) (by decide) (by decide) (by decide) (by decide)
    exG6_no_chain

/-- With duplicate-free keys, association-list membership determines lookup. -/
theorem lookup_of_mem_nodup (g : Graph) (hnd : (keysOf g).Nodup) (t : String)
    (n : TableNode) (h : (t, n) ∈ g) : lookupG g t = some n := by
  induction g with
  | nil => cases h
  | cons e rest ih =>
    simp only [keysOf, List.map_cons, List.nodup_cons] at hnd
    rw [lookupG]
    rcases List.mem_cons.mp h with heq | h1
    · rw [← heq]
      rw [if_pos rfl]
    · by_cases he : e.1 = t
      · exfalso
        apply hnd.1
        rw [he]
        exact List.mem_map.mpr ⟨(t, n), h1, rfl⟩
      · rw [if_neg he]
        exact ih hnd.2 h1

/-- A duplicate-free list contained in a list it is at least as long as covers
it. -/
theorem nodup_covers (keys seen : List String) (hnd : seen.Nodup)
    (hsub : ∀ t ∈ seen, t ∈ keys) (hlen : ¬seen.length < keys.length) :
    ∀ t ∈ keys, t ∈ seen := by
  have h1 : seen.toFinset ⊆ keys.toFinset := by
    intro a ha
    rw [List.mem_toFinset] at ha ⊢
    exact hsub a ha
  have h2 : keys.toFinset.card ≤ seen.toFinset.card := by
    rw [List.toFinset_card_of_nodup hnd]
    calc keys.toFinset.card ≤ keys.length := List.toFinset_card_le keys
      _ ≤ seen.length := by omega
  have h3 : seen.toFinset = keys.toFinset := Finset.eq_of_subset_of_card_le h1 h2
  intro t ht
  have h4 : t ∈ seen.toFinset := by
    rw [h3, List.mem_toFinset]
    exact ht
  rw [List.mem_toFinset] at h4
  exact h4

/-- A rank for the whole non-self foreign-key relation also ranks its
non-nullable flattened edges. -/
theorem rankOk_of_rankAllOk (g : Graph) (rank : String → Nat) (h : RankAllOk g rank) :
    RankOk g rank := by
  intro e he q hq _
  obtain ⟨pc, hpc, hkey, hne⟩ := flatEdges_key e.1 e.2.fks q hq
  have := h e he pc hpc (by rw [hkey]; exact hne)
  rw [← hkey]
  exact this

/-- Evaluation of `buildStmt` once the primary key and the join-search result
are known. -/
theorem buildStmt_eval (g : Graph) (root rootId : String) (fuel : Nat) (child : String)
    (info : TableNode) (pk : String) (restPks : List String) (j : Option (List Hop))
    (hp : info.pks = pk :: restPks) (hj : find_joins g root fuel child none = .ok j) :
    buildStmt g root rootId fuel child info =
      (if truthy j then
        .ok (String.intercalate " "
          (("SELECT " ++ child ++ ".* FROM " ++ child)
            :: (joinClauses child (j.getD []) ++
                ["WHERE " ++ root ++ "." ++ pk ++ " = " ++ rootId])))
      else if child = root then
        .ok ("SELECT * FROM " ++ root ++ " WHERE " ++ pk ++ " = " ++ rootId)
      else .ok ("SELECT * FROM " ++ child)) := by
  unfold buildStmt
  rw [hp, hj]

/-- `buildStmt` succeeds on a closed ranked graph when the table has a node, a
non-empty primary-key list, and the fuel exceeds its rank. -/
theorem buildStmt_ok (g : Graph) (root rootId : String) (rank : String → Nat) (fuel : Nat)
    (child : String) (info : TableNode) (hclosed : closedG g) (hrank : RankOk g rank)
    (hlk : lookupG g child = some info) (hpks : info.pks ≠ [])
    (hfuel : rank child < fuel) :
    ∃ s, buildStmt g root rootId fuel child info = .ok s := by
  obtain ⟨pk, restPks, hp⟩ := List.exists_cons_of_ne_nil hpks
  obtain ⟨j, hj⟩ := find_joins_ok g root rank hclosed hrank fuel child none
    (by rw [hlk]; rfl) hfuel
  rw [buildStmt_eval g root rootId fuel child info pk restPks j hp hj]
  by_cases ht : truthy j = true
  · rw [if_pos ht]
    exact ⟨_, rfl⟩
  · rw [if_neg ht]
    by_cases hc : child = root
    · rw [if_pos hc]
      exact ⟨_, rfl⟩
    · rw [if_neg hc]
      exact ⟨_, rfl⟩

/-- Appending a pair whose non-self targets all lie in the names so far
preserves order soundness. -/
theorem goodOut_append (g : Graph) (c : String) (s : String) :
    ∀ out done, GoodOut g done out →
      (∀ info, lookupG g c = some info → ∀ t ∈ fkTargets info, t ≠ c →
        t ∈ done ++ out.map Prod.fst) →
      GoodOut g done (out ++ [(c, s)]) := by
  intro out
  induction out with
  | nil =>
    intro done _ hc
    refine ⟨?_, trivial⟩
    intro info hlk t ht htne
    have := hc info hlk t ht htne
    simpa using this
  | cons x rest ih =>
    intro done hgood hc
    obtain ⟨hx, hrest⟩ := hgood
    refine ⟨hx, ?_⟩
    refine ih (done ++ [x.1]) hrest ?_
    intro info hlk t ht htne
    have := hc info hlk t ht htne
    simp only [List.map_cons, List.append_assoc, List.mem_append, List.mem_cons,
      List.mem_singleton] at this ⊢
    tauto

/-- One resolution pass succeeds whenever statement construction succeeds on
every node. -/
theorem tdPass_ok (g : Graph) (root rootId : String) (fuel : Nat)
    (hbuild : ∀ child info, (child, info) ∈ g →
      ∃ s, buildStmt g root rootId fuel child info = .ok s) :
    ∀ items, (∀ e ∈ items, e ∈ g) → ∀ seen acc,
      ∃ seen' acc', tdPass g root rootId fuel items seen acc = .ok (seen', acc') := by
  intro items
  induction items with
  | nil =>
    intro _ seen acc
    exact ⟨seen, acc, rfl⟩
  | cons e rest ih =>
    intro hsub seen acc
    obtain ⟨child, info⟩ := e
    rw [tdPass]
    by_cases h1 : child ∈ seen
    · rw [if_pos h1]
      exact ih (fun e' he' => hsub e' (List.mem_cons_of_mem _ he')) seen acc
    · rw [if_neg h1]
      by_cases h2 : ((fkTargets info).all fun t => decide (t = child ∨ t ∈ seen)) = true
      · rw [if_pos h2]
        obtain ⟨s, hs⟩ := hbuild child info (hsub _ (List.mem_cons_self _ _))
        rw [hs]
        exact ih (fun e' he' => hsub e' (List.mem_cons_of_mem _ he')) _ _
      · rw [if_neg h2]
        exact ih (fun e' he' => hsub e' (List.mem_cons_of_mem _ he')) seen acc

/-- One resolution pass only extends the seen set and the output list. -/
theorem tdPass_prefix (g : Graph) (root rootId : String) (fuel : Nat) :
    ∀ items seen acc seen' acc',
      tdPass g root rootId fuel items seen acc = .ok (seen', acc') →
      (∃ ext, seen' = seen ++ ext) ∧ (∃ ext2, acc' = acc ++ ext2) := by
  intro items
  induction items with
  | nil =>
    intro seen acc seen' acc' h
    rw [tdPass] at h
    injection h with h
    injection h with h1 h2
    exact ⟨⟨[], by simp [← h1]⟩, ⟨[], by simp [← h2]⟩⟩
  | cons e rest ih =>
    intro seen acc seen' acc' h
    obtain ⟨child, info⟩ := e
    rw [tdPass] at h
    by_cases h1 : child ∈ seen
    · rw [if_pos h1] at h
      exact ih seen acc seen' acc' h
    · rw [if_neg h1] at h
      by_cases h2 : ((fkTargets info).all fun t => decide (t = child ∨ t ∈ seen)) = true
      · rw [if_pos h2] at h
        cases hb : buildStmt g root rootId fuel child info with
        | error e1 => rw [hb] at h; cases h
        | ok stmt =>
          rw [hb] at h
          obtain ⟨⟨ext, hext⟩, ⟨ext2, hext2⟩⟩ := ih _ _ seen' acc' h
          exact ⟨⟨child :: ext, by simp [hext]⟩, ⟨(child, stmt) :: ext2, by simp [hext2]⟩⟩
      · rw [if_neg h2] at h
        exact ih seen acc seen' acc' h

/-- One resolution pass preserves the loop invariants: names of the output
match the seen set, the seen set is duplicate-free, stays within the graph's
keys, and the output is order-sound. -/
theorem tdPass_inv (g : Graph) (root rootId : String) (fuel : Nat)
    (hknodup : (keysOf g).Nodup) :
    ∀ items, (∀ e ∈ items, e ∈ g) → ∀ seen acc seen' acc',
      tdPass g root rootId fuel items seen acc = .ok (seen', acc') →
      acc.map Prod.fst = seen → seen.Nodup → (∀ t ∈ seen, t ∈ keysOf g) →
      GoodOut g [] acc →
      (acc'.map Prod.fst = seen' ∧ seen'.Nodup ∧ (∀ t ∈ seen', t ∈ keysOf g) ∧
        GoodOut g [] acc') := by
  intro items
  induction items with
  | nil =>
    intro _ seen acc seen' acc' h hmap hnd hsub hgood
    rw [tdPass] at h
    injection h with h
    injection h with h1 h2
    rw [← h1, ← h2]
    exact ⟨hmap, hnd, hsub, hgood⟩
  | cons e rest ih =>
    intro hsubg seen acc seen' acc' h hmap hnd hsub hgood
    obtain ⟨child, info⟩ := e
    have hrest : ∀ e' ∈ rest, e' ∈ g := fun e' he' => hsubg e' (List.mem_cons_of_mem _ he')
    rw [tdPass] at h
    by_cases h1 : child ∈ seen
    · rw [if_pos h1] at h
      exact ih hrest seen acc seen' acc' h hmap hnd hsub hgood
    · rw [if_neg h1] at h
      by_cases h2 : ((fkTargets info).all fun t => decide (t = child ∨ t ∈ seen)) = true
      · rw [if_pos h2] at h
        cases hb : buildStmt g root rootId fuel child info with
        | error e1 => rw [hb] at h; cases h
        | ok stmt =>
          rw [hb] at h
          have hming : (child, info) ∈ g := hsubg _ (List.mem_cons_self _ _)
          have hlkc : lookupG g child = some info := lookup_of_mem_nodup g hknodup child info hming
          refine ih hrest _ _ seen' acc' h ?_ ?_ ?_ ?_
          · rw [List.map_append, hmap]
            rfl
          · rw [List.nodup_append]
            refine ⟨hnd, List.nodup_singleton _, ?_⟩
            intro a ha hc
            rw [List.mem_singleton] at hc
            rw [hc] at ha
            exact h1 ha
          · intro t ht
            rcases List.mem_append.mp ht with h3 | h3
            · exact hsub t h3
            · rw [List.mem_singleton] at h3
              rw [h3]
              exact List.mem_map.mpr ⟨(child, info), hming, rfl⟩
          · refine goodOut_append g child stmt acc [] hgood ?_
            intro info' hlk' t ht htne
            rw [hlkc] at hlk'
            injection hlk' with hlk'
            rw [← hlk'] at ht
            rw [List.all_eq_true] at h2
            have h4 := h2 t ht
            rw [decide_eq_true_eq] at h4
            rcases h4 with h4 | h4
            · exact absurd h4 htne
            · rw [List.nil_append, hmap]
              exact h4
      · rw [if_neg h2] at h
        exact ih hrest seen acc seen' acc' h hmap hnd hsub hgood

/-- One full pass resolves every table whose non-self targets were all seen
before the pass started. -/
theorem tdPass_progress (g : Graph) (root rootId : String) (fuel : Nat) :
    ∀ items seen acc seen' acc',
      tdPass g root rootId fuel items seen acc = .ok (seen', acc') →
      ∀ e ∈ items, (∀ t ∈ fkTargets e.2, t ≠ e.1 → t ∈ seen) → e.1 ∈ seen' := by
  intro items
  induction items with
  | nil =>
    intro seen acc seen' acc' _ e he
    cases he
  | cons e0 rest ih =>
    intro seen acc seen' acc' h e he hta
    obtain ⟨child, info⟩ := e0
    rw [tdPass] at h
    rcases List.mem_cons.mp he with rfl | he'
    · by_cases h1 : child ∈ seen
      · rw [if_pos h1] at h
        obtain ⟨⟨ext, hext⟩, _⟩ := tdPass_prefix g root rootId fuel rest seen acc seen' acc' h
        rw [hext]
        exact List.mem_append.mpr (Or.inl h1)
      · rw [if_neg h1] at h
        have h2 : ((fkTargets info).all fun t => decide (t = child ∨ t ∈ seen)) = true := by
          rw [List.all_eq_true]
          intro t ht
          rw [decide_eq_true_eq]
          by_cases htc : t = child
          · exact Or.inl htc
          · exact Or.inr (hta t ht htc)
        rw [if_pos h2] at h
        cases hb : buildStmt g root rootId fuel child info with
        | error e1 => rw [hb] at h; cases h
        | ok stmt =>
          rw [hb] at h
          obtain ⟨⟨ext, hext⟩, _⟩ := tdPass_prefix g root rootId fuel rest _ _ seen' acc' h
          rw [hext]
          simp
    · by_cases h1 : child ∈ seen
      · rw [if_pos h1] at h
        exact ih seen acc seen' acc' h e he' hta
      · rw [if_neg h1] at h
        by_cases h2 : ((fkTargets info).all fun t => decide (t = child ∨ t ∈ seen)) = true
        · rw [if_pos h2] at h
          cases hb : buildStmt g root rootId fuel child info with
          | error e1 => rw [hb] at h; cases h
          | ok stmt =>
            rw [hb] at h
            refine ih _ _ seen' acc' h e he' ?_
            intro t ht htne
            exact List.mem_append.mpr (Or.inl (hta t ht htne))
        · rw [if_neg h2] at h
          exact ih seen acc seen' acc' h e he' hta

/-- A duplicate-free list is no longer than any list containing it. -/
theorem nodup_length_le (l l' : List String) (hnd : l.Nodup) (hsub : ∀ t ∈ l, t ∈ l') :
    l.length ≤ l'.length := by
  rw [← List.toFinset_card_of_nodup hnd]
  calc l.toFinset.card ≤ l'.toFinset.card := Finset.card_le_card (by
        intro a ha
        rw [List.mem_toFinset] at ha ⊢
        exact hsub a ha)
    _ ≤ l'.length := List.toFinset_card_le l'

/-- Convergence of the resolution loop: on a well-formed graph whose non-self
foreign-key relation is ranked, with pass budget `n` and every table of rank
below `fuel - n` already seen, the loop completes and its output names the
graph's keys exactly once, in an order-sound sequence. -/
theorem tdLoop_spec (g : Graph) (root rootId : String) (fuel : Nat) (rank : String → Nat)
    (hknodup : (keysOf g).Nodup) (hclosed : closedG g) (hrankAll : RankAllOk g rank)
    (hfuel : ∀ e ∈ g, rank e.1 < fuel)
    (hbuild : ∀ child info, (child, info) ∈ g →
      ∃ s, buildStmt g root rootId fuel child info = .ok s) :
    ∀ n seen acc,
      (∀ e ∈ g, rank e.1 < fuel - n → e.1 ∈ seen) →
      acc.map Prod.fst = seen → seen.Nodup → (∀ t ∈ seen, t ∈ keysOf g) →
      GoodOut g [] acc →
      ∃ out, tdLoop g root rootId fuel n seen acc = .ok out ∧
        (out.map Prod.fst).Nodup ∧ (∀ t, t ∈ out.map Prod.fst ↔ t ∈ keysOf g) ∧
        GoodOut g [] out := by
  intro n
  induction n with
  | zero =>
    intro seen acc hrseen hmap hnd hsub hgood
    have hall : ∀ t ∈ keysOf g, t ∈ seen := by
      intro t ht
      obtain ⟨e, he, rfl⟩ := List.mem_map.mp ht
      exact hrseen e he (by have := hfuel e he; omega)
    have hlen : ¬seen.length < g.length := by
      have h1 := nodup_length_le (keysOf g) seen hknodup hall
      have h2 : (keysOf g).length = g.length := by simp [keysOf]
      omega
    rw [tdLoop, if_neg hlen]
    refine ⟨acc, rfl, by rw [hmap]; exact hnd, ?_, hgood⟩
    intro t
    rw [hmap]
    exact ⟨hsub t, hall t⟩
  | succ n ih =>
    intro seen acc hrseen hmap hnd hsub hgood
    rw [tdLoop]
    by_cases hlen : seen.length < g.length
    · rw [if_pos hlen]
      obtain ⟨seen1, acc1, hpass⟩ := tdPass_ok g root rootId fuel hbuild g
        (fun e he => he) seen acc
      rw [hpass]
      obtain ⟨hmap1, hnd1, hsub1, hgood1⟩ := tdPass_inv g root rootId fuel hknodup g
        (fun e he => he) seen acc seen1 acc1 hpass hmap hnd hsub hgood
      have hrseen1 : ∀ e ∈ g, rank e.1 < fuel - n → e.1 ∈ seen1 := by
        intro e he hre
        refine tdPass_progress g root rootId fuel g seen acc seen1 acc1 hpass e he ?_
        intro t ht htne
        obtain ⟨pc, hpc, hpck⟩ := List.mem_map.mp ht
        have hrt : rank t < rank e.1 := by
          rw [← hpck]
          exact hrankAll e he pc hpc (by rw [hpck]; exact htne)
        have hsome : (lookupG g t).isSome = true := by
          rw [← hpck]
          exact hclosed e he pc hpc
        obtain ⟨nt, hnt⟩ := Option.isSome_iff_exists.mp hsome
        exact hrseen (t, nt) (lookupG_mem g t nt hnt) (show rank t < fuel - (n + 1) by omega)
      exact ih seen1 acc1 hrseen1 hmap1 hnd1 hsub1 hgood1
    · rw [if_neg hlen]
      have hall : ∀ t ∈ keysOf g, t ∈ seen := by
        refine nodup_covers (keysOf g) seen hnd hsub ?_
        have h2 : (keysOf g).length = g.length := by simp [keysOf]
        omega
      refine ⟨acc, rfl, by rw [hmap]; exact hnd, ?_, hgood⟩
      intro t
      rw [hmap]
      exact ⟨hsub t, hall t⟩

/-- C3: on a well-formed graph (duplicate-free keys, closed foreign-key
targets, non-empty primary keys — the spec's own Graph and TableNode
invariants) whose foreign-key relation with self-edges removed is acyclic
(witnessed by a rank strictly decreasing along every non-self edge) and with
enough fuel, the `table_data` resolution loop terminates and yields every
table of the graph exactly once, in an order where each table comes after
every other table it holds a foreign key into. -/
theorem table_data_sequences (g : Graph) (root rootId : String) (rank : String → Nat)
    (fuel : Nat) (hknodup : (keysOf g).Nodup) (hclosed : closedG g)
    (hpks : ∀ e ∈ g, e.2.pks ≠ []) (hrankAll : RankAllOk g rank)
    (hfuel : ∀ e ∈ g, rank e.1 < fuel) :
    ∃ out, table_data g root rootId fuel = .ok out ∧
      (out.map Prod.fst).Nodup ∧
      (∀ t, t ∈ out.map Prod.fst ↔ t ∈ keysOf g) ∧
      GoodOut g [] out := by
  have hrank : RankOk g rank := rankOk_of_rankAllOk g rank hrankAll
  have hbuild : ∀ child info, (child, info) ∈ g →
      ∃ s, buildStmt g root rootId fuel child info = .ok s := by
    intro child info hm
    exact buildStmt_ok g root rootId rank fuel child info hclosed hrank
      (lookup_of_mem_nodup g hknodup child info hm) (hpks (child, info) hm)
      (hfuel (child, info) hm)
  unfold table_data
  refine tdLoop_spec g root rootId fuel rank hknodup hclosed hrankAll hfuel hbuild
    fuel [] [] ?_ rfl List.nodup_nil (by intro t ht; cases ht) trivial
  intro e he h
  exact absurd h (by omega)

/-- Witness for C3 on a concrete two-table graph. -/
theorem table_data_sequences_witness :
    ∃ out, table_data exG1 "r" "42" 2 = .ok out ∧
      (out.map Prod.fst).Nodup ∧
      (∀ t, t ∈ out.map Prod.fst ↔ t ∈ keysOf exG1) ∧
      GoodOut exG1 [] out :=
  table_data_sequences exG1 "r" "42" (fun t => if t = "a" then 1 else 0) 2
    (by decide) (by decide) (by decide) (by decide) (by decide)

/-- Dict assignment preserves duplicate-freedom of the keys. -/
theorem dictSet_keys_nodup (g : Graph) (k : String) (v : TableNode)
    (h : (keysOf g).Nodup) : (keysOf (dictSet g k v)).Nodup := by
  induction g with
  | nil => simp [dictSet, keysOf]
  | cons e rest ih =>
    simp only [keysOf, List.map_cons, List.nodup_cons] at h
    rw [dictSet]
    by_cases he : e.1 = k
    · rw [if_pos he]
      simp only [keysOf, List.map_cons, List.nodup_cons]
      exact ⟨by rw [← he]; exact h.1, h.2⟩
    · rw [if_neg he]
      simp only [keysOf, List.map_cons, List.nodup_cons]
      refine ⟨?_, ih h.2⟩
      intro hc
      rcases (dictSet_key_mem rest k v e.1).mp hc with h1 | h1
      · exact he h1
      · exact h.1 h1

/-- The table pass preserves duplicate-freedom of the keys. -/
theorem tablePass_keys_nodup (skip : List String) (rows : List TableRow) :
    ∀ g, (keysOf g).Nodup → (keysOf (tablePass skip rows g)).Nodup := by
  induction rows with
  | nil => exact fun g h => h
  | cons r rest ih =>
    intro g h
    rw [tablePass]
    by_cases hs : skip ≠ [] ∧ r.table_name ∈ skip
    · rw [if_pos hs]
      exact ih g h
    · rw [if_neg hs]
      exact ih _ (dictSet_keys_nodup g r.table_name _ h)

/-- The key list of every graph `build_graph` returns is duplicate-free. -/
theorem build_graph_keys_nodup (tableRows : List TableRow) (fkRows : List FKRow)
    (skip : List String) (g : Graph) (h : build_graph tableRows fkRows skip = some g) :
    (keysOf g).Nodup := by
  unfold build_graph at h
  rw [fkPass_keys skip fkRows _ g h]
  exact tablePass_keys_nodup skip tableRows [] (by simp [keysOf])

/-- A completed resolution loop covers every key and is order-sound, given the
loop invariants at entry. -/
theorem tdLoop_post (g : Graph) (root rootId : String) (fuel : Nat)
    (hknodup : (keysOf g).Nodup) :
    ∀ n seen acc out,
      tdLoop g root rootId fuel n seen acc = .ok out →
      acc.map Prod.fst = seen → seen.Nodup → (∀ t ∈ seen, t ∈ keysOf g) →
      GoodOut g [] acc →
      (∀ t ∈ keysOf g, t ∈ out.map Prod.fst) ∧ GoodOut g [] out := by
  intro n
  induction n with
  | zero =>
    intro seen acc out h hmap hnd hsub hgood
    rw [tdLoop] at h
    by_cases hlen : seen.length < g.length
    · rw [if_pos hlen] at h
      cases h
    · rw [if_neg hlen] at h
      injection h with h
      have hall : ∀ t ∈ keysOf g, t ∈ seen := by
        refine nodup_covers (keysOf g) seen hnd hsub ?_
        have h2 : (keysOf g).length = g.length := by simp [keysOf]
        omega
      rw [← h]
      exact ⟨by rw [hmap]; exact hall, hgood⟩
  | succ n ih =>
    intro seen acc out h hmap hnd hsub hgood
    rw [tdLoop] at h
    by_cases hlen : seen.length < g.length
    · rw [if_pos hlen] at h
      cases hpass : tdPass g root rootId fuel g seen acc with
      | error e => rw [hpass] at h; cases h
      | ok pr =>
        obtain ⟨seen1, acc1⟩ := pr
        rw [hpass] at h
        obtain ⟨hmap1, hnd1, hsub1, hgood1⟩ := tdPass_inv g root rootId fuel hknodup g
          (fun e he => he) seen acc seen1 acc1 hpass hmap hnd hsub hgood
        exact ih seen1 acc1 out h hmap1 hnd1 hsub1 hgood1
    · rw [if_neg hlen] at h
      injection h with h
      have hall : ∀ t ∈ keysOf g, t ∈ seen := by
        refine nodup_covers (keysOf g) seen hnd hsub ?_
        have h2 : (keysOf g).length = g.length := by simp [keysOf]
        omega
      rw [← h]
      exact ⟨by rw [hmap]; exact hall, hgood⟩

/-- In an order-sound output, every emitted table's non-self targets lie in
the done-prefix or among the emitted names. -/
theorem goodOut_targets (g : Graph) :
    ∀ out done, GoodOut g done out →
      ∀ x ∈ out, ∀ info, lookupG g x.1 = some info →
        ∀ t ∈ fkTargets info, t ≠ x.1 → t ∈ done ∨ t ∈ out.map Prod.fst := by
  intro out
  induction out with
  | nil =>
    intro done _ x hx
    cases hx
  | cons y rest ih =>
    intro done hgood x hx info hlk t ht htne
    obtain ⟨hy, hrest⟩ := hgood
    rcases List.mem_cons.mp hx with rfl | hx'
    · exact Or.inl (hy info hlk t ht htne)
    · rcases ih (done ++ [y.1]) hrest x hx' info hlk t ht htne with h | h
      · rcases List.mem_append.mp h with h | h
        · exact Or.inl h
        · right
          rw [List.mem_singleton] at h
          rw [List.map_cons, h]
          exact List.mem_cons_self _ _
      · right
        rw [List.map_cons]
        exact List.mem_cons_of_mem _ h

/-- Edge lookup on a missing owner. -/
theorem edgeIn_none (g : Graph) (owner ft : String) (tr : String × String × Bool)
    (hlk : lookupG g owner = none) : edgeIn g owner ft tr = false := by
  unfold edgeIn
  rw [hlk]

/-- Edge lookup through the owner's node. -/
theorem edgeIn_some (g : Graph) (owner ft : String) (tr : String × String × Bool)
    (node : TableNode) (hlk : lookupG g owner = some node) :
    edgeIn g owner ft tr = edgeInFks node.fks ft tr := by
  unfold edgeIn
  rw [hlk]

/-- A present edge exhibits its target among the owner node's target keys. -/
theorem edgeIn_target (g : Graph) (owner ft : String) (tr : String × String × Bool)
    (h : edgeIn g owner ft tr = true) :
    ∃ node, lookupG g owner = some node ∧ ft ∈ fkTargets node := by
  cases hlk : lookupG g owner with
  | none =>
    rw [edgeIn_none g owner ft tr hlk] at h
    cases h
  | some node =>
    rw [edgeIn_some g owner ft tr node hlk] at h
    rw [edgeInFks, List.any_eq_true] at h
    obtain ⟨pc, hpc, hb⟩ := h
    rw [Bool.and_eq_true, decide_eq_true_eq, decide_eq_true_eq] at hb
    exact ⟨node, rfl, List.mem_map.mpr ⟨pc, hpc, hb.1⟩⟩

/-- C8: under the claim's own precondition — the graph was built (no skip set)
and the table-copy sequence ran to completion — `restore_keys` issues exactly
one `ALTER TABLE <dest>.<table> ADD CONSTRAINT <name> FOREIGN KEY (<col>)
REFERENCES <dest>.<target> (<target_col>)` per source foreign-key constraint,
and both endpoint tables of every such constraint are among the tables cloned
into the destination schema, so these are exactly the constraints between
tables now present there. -/
theorem restore_keys_statements (tableRows : List TableRow) (fkRows : List FKRow)
    (root rootId schema : String) (fuel : Nat) (g : Graph) (out : List (String × String))
    (hg : build_graph tableRows fkRows [] = some g)
    (hout : table_data g root rootId fuel = .ok out) :
    restore_keys schema fkRows = fkRows.map (fun r =>
      "ALTER TABLE " ++ schema ++ "." ++ r.table_name ++ " ADD CONSTRAINT " ++
        r.constraint_name ++ " FOREIGN KEY (" ++ r.column_name ++ ") REFERENCES " ++
        schema ++ "." ++ r.foreign_table_name ++ " (" ++ r.foreign_column_name ++ ")") ∧
    ∀ r ∈ fkRows, r.table_name ∈ out.map Prod.fst ∧
      r.foreign_table_name ∈ out.map Prod.fst := by
  have hknodup : (keysOf g).Nodup := build_graph_keys_nodup tableRows fkRows [] g hg
  have hpost := tdLoop_post g root rootId fuel hknodup fuel [] [] out hout rfl
    List.nodup_nil (by intro t ht; cases ht) trivial
  have hg' := hg
  unfold build_graph at hg'
  have howner : ∀ r ∈ fkRows, r.table_name ∈ keysOf g := by
    intro r hr
    by_contra hc
    have : fkPass [] fkRows (tablePass [] tableRows []) = none := by
      rw [fkPass_none_iff]
      refine ⟨r, hr, by simp, ?_⟩
      rw [← fkPass_keys [] fkRows _ g hg']
      exact hc
    rw [this] at hg'
    cases hg'
  refine ⟨rfl, ?_⟩
  intro r hr
  have hoin : r.table_name ∈ out.map Prod.fst := hpost.1 _ (howner r hr)
  refine ⟨hoin, ?_⟩
  have hedge : edgeIn g r.table_name r.foreign_table_name
      (r.column_name, r.foreign_column_name, r.nullable) = true :=
    fkPass_complete [] fkRows _ g hg' r hr (by simp)
  obtain ⟨node, hlk, htarget⟩ := edgeIn_target g r.table_name r.foreign_table_name _ hedge
  by_cases hself : r.foreign_table_name = r.table_name
  · rw [hself]
    exact hoin
  · obtain ⟨x, hxin, hx1⟩ := List.mem_map.mp hoin
    rcases goodOut_targets g out [] hpost.2 x hxin node (by rw [hx1]; exact hlk)
      r.foreign_table_name htarget (by rw [hx1]; exact hself) with h | h
    · cases h
    · exact h

/-- Witness for C8 on the concrete root-and-child database. -/
theorem restore_keys_statements_witness :
    restore_keys "s" exFRows = exFRows.map (fun r =>
      "ALTER TABLE " ++ "s" ++ "." ++ r.table_name ++ " ADD CONSTRAINT " ++
        r.constraint_name ++ " FOREIGN KEY (" ++ r.column_name ++ ") REFERENCES " ++
        "s" ++ "." ++ r.foreign_table_name ++ " (" ++ r.foreign_column_name ++ ")") ∧
    ∀ r ∈ exFRows, r.table_name ∈ exOutW.map Prod.fst ∧
      r.foreign_table_name ∈ exOutW.map Prod.fst :=
  restore_keys_statements exTRows exFRows "r" "1" "s" 3 exGW exOutW rfl rfl

/-- C9: the orchestrator's warning flag `bool(graph[root]["fks"])` is raised
exactly when the root table's foreign-key map is non-empty, and a raised flag
does not abort the run — the statement sequence is produced to completion
(schema reset, per-table clone and insert for every yielded table, then
constraint restoration) regardless of the flag. -/
theorem explode_warning (tableRows : List TableRow) (fkRows : List FKRow)
    (root rootId schema : String) (fuel : Nat) (g : Graph) (info : TableNode)
    (out : List (String × String))
    (h1 : build_graph tableRows fkRows [] = some g) (h2 : lookupG g root = some info)
    (h3 : info.pks ≠ []) (h4 : table_data g root rootId fuel = .ok out) :
    explode_step tableRows fkRows root rootId schema fuel =
      .ok (!info.fks.isEmpty,
        ["DROP SCHEMA IF EXISTS " ++ schema ++ " CASCADE",
         "CREATE SCHEMA " ++ schema] ++
        out.foldr (fun ts acc =>
          ("CREATE TABLE " ++ schema ++ "." ++ ts.1 ++
             " (LIKE public." ++ ts.1 ++ " INCLUDING ALL)") ::
          ("INSERT INTO " ++ schema ++ "." ++ ts.1 ++ " (" ++ ts.2 ++ ")") :: acc) [] ++
        restore_keys schema fkRows) ∧
    ((!info.fks.isEmpty) = true ↔ info.fks ≠ []) := by
  obtain ⟨pk, restPks, hp⟩ := List.exists_cons_of_ne_nil h3
  constructor
  · unfold explode_step
    simp only [h1, h2, hp, h4]
  · cases hf : info.fks with
    | nil => simp [hf]
    | cons a l => simp

/-- Witness for C9: a root with an outgoing foreign key raises the warning and
the run still completes. -/
theorem explode_warning_witness :
    explode_step exTRows exFRows "r" "1" "s" 3 =
      .ok (!(TableNode.mk ["id"] [("c", [("c_id", "id", false)])]).fks.isEmpty,
        ["DROP SCHEMA IF EXISTS " ++ "s" ++ " CASCADE",
         "CREATE SCHEMA " ++ "s"] ++
        exOutW.foldr (fun ts acc =>
          ("CREATE TABLE " ++ "s" ++ "." ++ ts.1 ++
             " (LIKE public." ++ ts.1 ++ " INCLUDING ALL)") ::
          ("INSERT INTO " ++ "s" ++ "." ++ ts.1 ++ " (" ++ ts.2 ++ ")") :: acc) [] ++
        restore_keys "s" exFRows) ∧
    ((!(TableNode.mk ["id"] [("c", [("c_id", "id", false)])]).fks.isEmpty) = true ↔
      (TableNode.mk ["id"] [("c", [("c_id", "id", false)])]).fks ≠ []) :=
  explode_warning exTRows exFRows "r" "1" "s" 3 exGW
    ⟨["id"], [("c", [("c_id", "id", false)])]⟩ exOutW rfl rfl (by decide) rfl

end Pgexplode
